import Mathlib

/-!
Verification of the graph-assembly core of the mm-frontend dashboard.

The development shallowly embeds the TypeScript `GraphDataService`
(the version building multi-level coupling: `buildDirectories`,
`buildClassToFileMap`, `buildFunctionToFileMap`, `buildMethodLevelCoupling`,
`buildFunctionLevelCoupling`, `buildClassLevelCoupling`,
`buildFileLevelCoupling`, `buildGraph`, `loadHierarchy`) and the
expand/collapse view controllers of the hierarchical-graph and
module-function-graph components (`expand`, `collapse`, `isDescendant`,
`findVisible`, `updateLinks`).

Modelling conventions:
- JavaScript `Map` objects are association lists in insertion order;
  `Map.set` replaces the value of the first matching key in place and
  otherwise appends, `Map.prototype.values` lists values in entry order.
- JavaScript objects iterated with `Object.entries` are association lists.
- Link keys of the source are the strings `src + "->" + tgt` (and
  `src + "-" + tgt` in the components), split back at materialisation
  time; they are modelled as the pair `(src, tgt)` directly, which is
  what the encoding computes for identifiers free of the separator.
- Numeric call counts are natural numbers (the metric payloads carry
  non-negative integer counts; all accumulation is addition).
- Optional `children` arrays of the source are total lists of child ids
  (the source never distinguishes a missing array from an empty one:
  every read is guarded by `|| []`, `?.` or a length test).
-/

namespace Mm

/-- JsMap models a JavaScript Map as an insertion-ordered association list. -/
abbrev JsMap (κ α : Type) := List (κ × α)

/-- getK models Map.prototype.get: the value at the first matching key. -/
def getK {κ α : Type} [DecidableEq κ] : JsMap κ α → κ → Option α
  | [], _ => none
  | (k₁, v) :: rest, k => if k₁ = k then some v else getK rest k

/-- hasK models Map.prototype.has. -/
def hasK {κ α : Type} [DecidableEq κ] (m : JsMap κ α) (k : κ) : Bool :=
  (getK m k).isSome

/-- setK models Map.prototype.set: replace the value at an existing key in
place, otherwise append the new entry at the end. -/
def setK {κ α : Type} [DecidableEq κ] : JsMap κ α → κ → α → JsMap κ α
  | [], k, v => [(k, v)]
  | (k₁, v₁) :: rest, k, v =>
      if k₁ = k then (k₁, v) :: rest else (k₁, v₁) :: setK rest k v

/-- valsK models Map.prototype.values as a list in entry order. -/
def valsK {κ α : Type} (m : JsMap κ α) : List α := m.map (·.2)

/-- splitOnCharList splits a character list at every occurrence of the
separator, keeping empty pieces, like the JavaScript String.split with a
single-character separator. -/
def splitOnCharList (c : Char) : List Char → List String
  | [] => [""]
  | ch :: rest =>
      let r := splitOnCharList c rest
      if ch = c then "" :: r
      else
        match r with
        | [] => [String.mk [ch]]
        | s :: tail => String.mk (ch :: s.data) :: tail

/-- splitOnChar models the JavaScript path.split(sep) for a one-character
separator (String.splitOn of the library, restated by structural
recursion over the character data). -/
def splitOnChar (c : Char) (s : String) : List String :=
  splitOnCharList c s.data

/-- strStartsWith models String.prototype.startsWith (String.startsWith
of the library, restated over the character data). -/
def strStartsWith (s pre : String) : Bool :=
  pre.data.isPrefixOf s.data

/-- NodeType is the `NodeType` union of the service. -/
inductive NodeType : Type
  | DIRECTORY | FILE | CLASS | FUNCTION
deriving DecidableEq, Repr

/-- Direction is the `direction` union of `GraphLink`. -/
inductive Direction : Type
  | fanOut | fanIn
deriving DecidableEq, Repr

/-- LinkType is the `type` union of `GraphLink`. -/
inductive LinkType : Type
  | DEPENDENCY | COUPLING | CALL
deriving DecidableEq, Repr

/-- GraphNode mirrors the `GraphNode` interface of the service (the layout
fields x and y are omitted; `children` holds child ids). -/
structure GraphNode : Type where
  id : String
  label : String
  type : NodeType
  parentId : Option String
  children : List String
  loc : Nat
  depth : Nat
deriving DecidableEq, Repr

/-- GraphLink mirrors the `GraphLink` interface of the service. -/
structure GraphLink : Type where
  source : String
  target : String
  value : Nat
  type : LinkType
  direction : Option Direction
deriving DecidableEq, Repr

/-- NodeMap is the `nodesMap` of `buildGraph`. -/
abbrev NodeMap := JsMap String GraphNode

/-- MethodEntry models one element of a `classes-per-file` or
`class-coupling` member array: `key` is `method.key?.name`, `fanOut` and
`fanIn` are the optional `fan-out` and `fan-in` records mapping a target
class name to a record of method names and counts (absent records are the
empty list, matching the `|| \x7b\x7d` defaults of the source). -/
structure MethodEntry : Type where
  key : Option String
  fanOut : List (String × List (String × Nat))
  fanIn : List (String × List (String × Nat))
deriving DecidableEq, Repr

/-- FnCouplingEntry models one `function-coupling` record for a function. -/
structure FnCouplingEntry : Type where
  fanOut : List (String × Nat)
  fanIn : List (String × Nat)
deriving DecidableEq, Repr

/-- MetricData models the joined metric payloads consumed by `buildGraph`.
The `files` field is the result of the shape sniffing of the source
(`data.files` as an array, or `data.files.result` as an array): `some`
when either shape matched, `none` otherwise. -/
structure MetricData : Type where
  files : Option (List String)
  locByFile : List (String × Nat)
  dependencies : List (String × List String)
  classes : List (String × List (String × List MethodEntry))
  classCoupling : List (String × List (String × List MethodEntry))
  funcs : List (String × List String)
  funcCoupling : List (String × List (String × FnCouplingEntry))
deriving Repr

/-- filePathsOf models the file path extraction at the top of
`buildDirectories`: the files metric when it is array-shaped, otherwise
the keys of the dependency graph. -/
def filePathsOf (d : MetricData) : List String :=
  match d.files with
  | some fs => fs
  | none => d.dependencies.map (·.1)

/-- dirStep processes one path segment of the directory loop of
`buildDirectories`: create the directory node for the cumulative prefix
when it is not yet present, link it to its parent, and advance the
cumulative path, parent id and depth. -/
def dirStep (st : NodeMap × String × Option String × Nat) (part : String) :
    NodeMap × String × Option String × Nat :=
  let (m, currentPath, parentId, depth) := st
  let id := if currentPath = "" then part else currentPath ++ "/" ++ part
  let m :=
    if hasK m id then m
    else
      let dirNode : GraphNode :=
        { id := id, label := part, type := NodeType.DIRECTORY,
          parentId := parentId, children := [], loc := 0, depth := depth }
      let m := setK m id dirNode
      match parentId with
      | none => m
      | some p =>
          match getK m p with
          | none => m
          | some pn =>
              if (pn.children.find? (fun c => c = id)).isSome then m
              else setK m p { pn with children := pn.children ++ [id] }
  (m, id, some id, depth + 1)

/-- locOf models the file LOC lookup `data.loc?.byFile?.[path]?.loc || 10`
(a zero LOC is falsy in the source and also falls back to 10). -/
def locOf (locByFile : List (String × Nat)) (path : String) : Nat :=
  match getK locByFile path with
  | some l => if l = 0 then 10 else l
  | none => 10

/-- filePathStep processes one file path of `buildDirectories`: walk the
directory segments, then create the file node (unconditionally) and push
it onto the children of the last directory. -/
def filePathStep (locByFile : List (String × Nat)) (m : NodeMap)
    (path : String) : NodeMap :=
  let parts := splitOnChar '/' path
  let fileName := (parts.getLast?).getD ""
  let dirs := parts.dropLast
  let (m, _, parentId, depth) := dirs.foldl dirStep (m, "", none, 0)
  let fileNode : GraphNode :=
    { id := path, label := fileName, type := NodeType.FILE,
      parentId := parentId, children := [],
      loc := locOf locByFile path,
      depth := depth }
  let m := setK m path fileNode
  match parentId with
  | none => m
  | some p =>
      match getK m p with
      | none => m
      | some pn => setK m p { pn with children := pn.children ++ [path] }

/-- depLinksOf models the import edge loop at the end of
`buildDirectories`: one DEPENDENCY link of value 1 per import whose two
endpoints are registered, with no further filtering. -/
def depLinksOf (d : MetricData) (m : NodeMap) : List GraphLink :=
  d.dependencies.flatMap fun (src, imports) =>
    if hasK m src then
      imports.filterMap fun target =>
        if hasK m target then
          some { source := src, target := target, value := 1,
                 type := LinkType.DEPENDENCY, direction := none }
        else none
    else []

/-- buildDirectories models the node-building part of `buildDirectories`:
directory and file nodes for every file path, in input order. -/
def buildDirectories (d : MetricData) : NodeMap :=
  (filePathsOf d).foldl (filePathStep d.locByFile) []

/-- ClassFiles is the `classToFilesMap`: class short name to the list of
files declaring a class of that name. -/
abbrev ClassFiles := JsMap String (List String)

/-- classMemberStep creates one method node of `buildClassToFileMap`:
normalize the reserved name constructor to _constructor for the node id,
keep the display label, register the node (twice for a constructor: under
the normalized id and under the raw constructor id), and push the method
id onto the children of the class. -/
def classMemberStep (classId : String) (st : NodeMap) (meth : MethodEntry) :
    NodeMap :=
  let methodName := meth.key.getD "unknown"
  let normalizedName := if methodName = "constructor" then "_constructor" else methodName
  let methodId := classId ++ "::" ++ normalizedName
  let classDepth := match getK st classId with
                    | some c => c.depth
                    | none => 0
  let methodNode : GraphNode :=
    { id := methodId,
      label := if methodName = "_constructor" then "constructor" else methodName,
      type := NodeType.FUNCTION, parentId := some classId, children := [],
      loc := 1, depth := classDepth + 1 }
  let st := setK st methodId methodNode
  let st := if methodName = "constructor" then
              setK st (classId ++ "::constructor") methodNode
            else st
  match getK st classId with
  | none => st
  | some cn => setK st classId { cn with children := cn.children ++ [methodId] }

/-- classStep creates one class node of `buildClassToFileMap` together
with its method nodes, and records the owning file in the class-to-files
map (appending the file only when not already listed). -/
def classStep (file : String) (st : NodeMap × ClassFiles)
    (entry : String × List MethodEntry) : NodeMap × ClassFiles :=
  let (m, c2f) := st
  let (className, details) := entry
  let classId := file ++ "::" ++ className
  let existingFiles := (getK c2f className).getD []
  let existingFiles :=
    if existingFiles.contains file then existingFiles else existingFiles ++ [file]
  let c2f := setK c2f className existingFiles
  let parentDepth := match getK m file with
                     | some p => p.depth
                     | none => 0
  let node : GraphNode :=
    { id := classId, label := className, type := NodeType.CLASS,
      parentId := some file, children := [], loc := 1, depth := parentDepth + 1 }
  let m := setK m classId node
  let m := match getK m file with
           | none => m
           | some pn => setK m file { pn with children := pn.children ++ [classId] }
  let m := details.foldl (classMemberStep classId) m
  (m, c2f)

/-- buildClassToFileMap models `buildClassToFileMap`: register the class
and method nodes of every file present in the registry and build the
class short-name index. -/
def buildClassToFileMap (d : MetricData) (m : NodeMap) : NodeMap × ClassFiles :=
  d.classes.foldl
    (fun (st : NodeMap × ClassFiles) fileEntry =>
      let (file, clsMap) := fileEntry
      if hasK st.1 file then clsMap.foldl (classStep file) st else st)
    (m, [])

/-- FnFiles is the `functionToFileMap`: function name to declaring file. -/
abbrev FnFiles := JsMap String String

/-- funcStep creates one standalone function node of
`buildFunctionToFileMap`: detect a parent class by the Class-dot or
Class-colon naming convention among the CLASS children of the file, skip
when the id already exists, and parent the node to the matched class or
to the file. -/
def funcStep (file : String) (st : NodeMap × FnFiles) (funcName : String) :
    NodeMap × FnFiles :=
  let (m, f2f) := st
  match getK m file with
  | none => (m, f2f)
  | some fileNode =>
    let parentClass := fileNode.children.findSome? fun cid =>
      match getK m cid with
      | some c =>
          if c.type = NodeType.CLASS ∧
             (strStartsWith funcName (c.label ++ ".") ∨ strStartsWith funcName (c.label ++ "::")) then
            some c
          else none
      | none => none
    let id := file ++ "::" ++ funcName
    if hasK m id then (m, f2f)
    else
      let label := match (splitOnChar '.' funcName).getLast? with
                   | some s => if s = "" then funcName else s
                   | none => funcName
      let parentId := match parentClass with
                      | some c => c.id
                      | none => file
      let parentDepth := match parentClass with
                         | some c => c.depth
                         | none => fileNode.depth
      let node : GraphNode :=
        { id := id, label := label, type := NodeType.FUNCTION,
          parentId := some parentId, children := [], loc := 1,
          depth := parentDepth + 1 }
      let m := setK m id node
      let f2f := setK f2f funcName file
      let m := match getK m parentId with
               | none => m
               | some pn => setK m parentId { pn with children := pn.children ++ [id] }
      (m, f2f)

/-- buildFunctionToFileMap models `buildFunctionToFileMap`. -/
def buildFunctionToFileMap (d : MetricData) (m : NodeMap) : NodeMap × FnFiles :=
  d.funcs.foldl
    (fun (st : NodeMap × FnFiles) fileEntry =>
      let (file, funcMap) := fileEntry
      if hasK st.1 file then funcMap.foldl (funcStep file) st else st)
    (m, [])

/-- LinkAgg is the accumulated record of the link maps of the service:
an integer count together with the direction tag of the latest report. -/
structure LinkAgg : Type where
  count : Nat
  direction : Direction
deriving DecidableEq, Repr

/-- LinkMap is one of the `methodLinks`, `functionLinks`, `classLinks`
and `fileLinks` maps: the source keys them by the string
src + "->" + tgt, modelled as the pair of endpoint ids. -/
abbrev LinkMap := JsMap (String × String) LinkAgg

/-- LinkReport is one accumulation event against a link map: a directed
pair of resolved endpoint ids, a count, and the direction tag of the
report. -/
structure LinkReport : Type where
  src : String
  tgt : String
  count : Nat
  direction : Direction
deriving DecidableEq, Repr

/-- accumStep performs one accumulation of the source pattern: read the
existing record of the directed pair (defaulting to count 0), add the
reported count and overwrite the direction. -/
def accumStep (m : LinkMap) (r : LinkReport) : LinkMap :=
  let existing := (getK m (r.src, r.tgt)).getD { count := 0, direction := r.direction }
  setK m (r.src, r.tgt) { count := existing.count + r.count, direction := r.direction }

/-- linksOfMap materialises a link map into `links` entries of the given
type, in insertion order, as the final forEach of each build pass does. -/
def linksOfMap (lm : LinkMap) (t : LinkType) : List GraphLink :=
  lm.map fun e =>
    { source := e.1.1, target := e.1.2, value := e.2.count, type := t,
      direction := some e.2.direction }

/-- normalizeMethodName is the constructor normalization of
`buildMethodLevelCoupling`. -/
def normalizeMethodName (name : String) : String :=
  if name = "constructor" then "_constructor" else name

/-- findFirstRegisteredFile is the loop of `findClassFile`: the first
candidate file whose class id exists in the registry. -/
def findFirstRegisteredFile (m : NodeMap) (className : String) :
    List String → Option String
  | [] => none
  | f :: rest =>
      if hasK m (f ++ "::" ++ className) then some f
      else findFirstRegisteredFile m className rest

/-- findClassFile models the `findClassFile` helper: no candidate list
(or an empty one) resolves to nothing, otherwise the first candidate
whose class id is registered, falling back to the first candidate. -/
def findClassFile (m : NodeMap) (c2f : ClassFiles) (className : String) :
    Option String :=
  match getK c2f className with
  | none => none
  | some [] => none
  | some (f₀ :: rest) =>
      match findFirstRegisteredFile m className (f₀ :: rest) with
      | some f => some f
      | none => some f₀

/-- methodReports lists, in iteration order, every accumulation performed
by `buildMethodLevelCoupling`: fan-out entries produce a report from the
source method to the resolved target method, fan-in entries a report from
the resolved caller method to the source method; unresolved or
self-referential pairs are skipped. -/
def methodReports (d : MetricData) (m : NodeMap) (c2f : ClassFiles) :
    List LinkReport :=
  d.classCoupling.flatMap fun fe =>
    let (file, clsMap) := fe
    clsMap.flatMap fun ce =>
      let (className, methods) := ce
      let classId := file ++ "::" ++ className
      if hasK m classId then
        methods.flatMap fun meth =>
          let methodName := meth.key.getD "unknown"
          let srcMethodId := classId ++ "::" ++ normalizeMethodName methodName
          if hasK m srcMethodId then
            (meth.fanOut.flatMap fun te =>
              let (targetClassName, targetMethods) := te
              match findClassFile m c2f targetClassName with
              | none => []
              | some targetClassFile =>
                  let targetClassId := targetClassFile ++ "::" ++ targetClassName
                  if hasK m targetClassId then
                    targetMethods.filterMap fun tm =>
                      let (targetMethodName, count) := tm
                      let targetMethodId :=
                        targetClassId ++ "::" ++ normalizeMethodName targetMethodName
                      if hasK m targetMethodId ∧ srcMethodId ≠ targetMethodId then
                        some { src := srcMethodId, tgt := targetMethodId,
                               count := count, direction := Direction.fanOut }
                      else none
                  else [])
            ++
            (meth.fanIn.flatMap fun cme =>
              let (callerClassName, callerMethods) := cme
              match findClassFile m c2f callerClassName with
              | none => []
              | some callerClassFile =>
                  let callerClassId := callerClassFile ++ "::" ++ callerClassName
                  if hasK m callerClassId then
                    callerMethods.filterMap fun cm =>
                      let (callerMethodName, count) := cm
                      let callerMethodId :=
                        callerClassId ++ "::" ++ normalizeMethodName callerMethodName
                      if hasK m callerMethodId ∧ srcMethodId ≠ callerMethodId then
                        some { src := callerMethodId, tgt := srcMethodId,
                               count := count, direction := Direction.fanIn }
                      else none
                  else [])
          else []
      else []

/-- buildMethodLinks is the `methodLinks` map of
`buildMethodLevelCoupling`: the reports folded through `accumStep`. -/
def buildMethodLinks (d : MetricData) (m : NodeMap) (c2f : ClassFiles) : LinkMap :=
  (methodReports d m c2f).foldl accumStep []

/-- functionReports lists every accumulation performed by
`buildFunctionLevelCoupling`, resolving target and caller names through
the function-to-file map. -/
def functionReports (d : MetricData) (m : NodeMap) (f2f : FnFiles) :
    List LinkReport :=
  d.funcCoupling.flatMap fun fe =>
    let (srcFile, fnMap) := fe
    fnMap.flatMap fun ge =>
      let (srcFuncName, details) := ge
      let srcFuncId := srcFile ++ "::" ++ srcFuncName
      if hasK m srcFuncId then
        (details.fanOut.filterMap fun oe =>
          let (targetFuncName, count) := oe
          match getK f2f targetFuncName with
          | none => none
          | some targetFile =>
              let targetFuncId := targetFile ++ "::" ++ targetFuncName
              if hasK m targetFuncId ∧ srcFuncId ≠ targetFuncId then
                some { src := srcFuncId, tgt := targetFuncId, count := count,
                       direction := Direction.fanOut }
              else none)
        ++
        (details.fanIn.filterMap fun ie =>
          let (callerFuncName, count) := ie
          match getK f2f callerFuncName with
          | none => none
          | some callerFile =>
              let callerFuncId := callerFile ++ "::" ++ callerFuncName
              if hasK m callerFuncId ∧ srcFuncId ≠ callerFuncId then
                some { src := callerFuncId, tgt := srcFuncId, count := count,
                       direction := Direction.fanIn }
              else none)
      else []

/-- buildFunctionLinks is the `functionLinks` map of
`buildFunctionLevelCoupling`. -/
def buildFunctionLinks (d : MetricData) (m : NodeMap) (f2f : FnFiles) : LinkMap :=
  (functionReports d m f2f).foldl accumStep []

/-- classReportsFromMethods lists the first aggregation pass of
`buildClassLevelCoupling`: every method-level entry whose endpoints exist
and have distinct parents contributes its count between the parents. -/
def classReportsFromMethods (m : NodeMap) (methodLinks : LinkMap) :
    List LinkReport :=
  methodLinks.filterMap fun e =>
    let ((srcMethodId, targetMethodId), linkData) := e
    match getK m srcMethodId, getK m targetMethodId with
    | some srcMethod, some targetMethod =>
        match srcMethod.parentId, targetMethod.parentId with
        | some srcClassId, some targetClassId =>
            if srcClassId ≠ targetClassId then
              some { src := srcClassId, tgt := targetClassId,
                     count := linkData.count, direction := linkData.direction }
            else none
        | _, _ => none
    | _, _ => none

/-- classReportsFromFunctions lists the second aggregation pass of
`buildClassLevelCoupling`: function-level entries whose endpoints are both
methods of distinct classes contribute between those classes. -/
def classReportsFromFunctions (m : NodeMap) (functionLinks : LinkMap) :
    List LinkReport :=
  functionLinks.filterMap fun e =>
    let ((srcFuncId, targetFuncId), linkData) := e
    match getK m srcFuncId, getK m targetFuncId with
    | some srcFunc, some targetFunc =>
        match srcFunc.parentId, targetFunc.parentId with
        | some srcClassId, some targetClassId =>
            match getK m srcClassId, getK m targetClassId with
            | some srcClass, some targetClass =>
                if srcClass.type = NodeType.CLASS ∧ targetClass.type = NodeType.CLASS ∧
                   srcClassId ≠ targetClassId then
                  some { src := srcClassId, tgt := targetClassId,
                         count := linkData.count, direction := linkData.direction }
                else none
            | _, _ => none
        | _, _ => none
    | _, _ => none

/-- classReportsDirect lists the third pass of `buildClassLevelCoupling`:
the class-coupling metric contributes, for every fan-out or fan-in record
of a registered source class against a resolvable distinct target class,
the sum of the per-method counts of the record. -/
def classReportsDirect (d : MetricData) (m : NodeMap) (c2f : ClassFiles) :
    List LinkReport :=
  d.classCoupling.flatMap fun fe =>
    let (file, clsMap) := fe
    clsMap.flatMap fun ce =>
      let (srcClassName, methods) := ce
      let srcClassId := file ++ "::" ++ srcClassName
      if hasK m srcClassId then
        methods.flatMap fun meth =>
          (meth.fanOut.filterMap fun te =>
            let (targetClassName, targetMethods) := te
            match findClassFile m c2f targetClassName with
            | none => none
            | some targetClassFile =>
                let targetClassId := targetClassFile ++ "::" ++ targetClassName
                if hasK m targetClassId ∧ srcClassId ≠ targetClassId then
                  some { src := srcClassId, tgt := targetClassId,
                         count := (targetMethods.map (·.2)).sum,
                         direction := Direction.fanOut }
                else none)
          ++
          (meth.fanIn.filterMap fun cme =>
            let (callerClassName, callerMethods) := cme
            match findClassFile m c2f callerClassName with
            | none => none
            | some callerClassFile =>
                let callerClassId := callerClassFile ++ "::" ++ callerClassName
                if hasK m callerClassId ∧ srcClassId ≠ callerClassId then
                  some { src := callerClassId, tgt := srcClassId,
                         count := (callerMethods.map (·.2)).sum,
                         direction := Direction.fanIn }
                else none)
      else []

/-- buildClassLinks is the `classLinks` map of `buildClassLevelCoupling`:
the three passes accumulated in order. -/
def buildClassLinks (d : MetricData) (m : NodeMap) (c2f : ClassFiles)
    (methodLinks functionLinks : LinkMap) : LinkMap :=
  (classReportsFromMethods m methodLinks
    ++ classReportsFromFunctions m functionLinks
    ++ classReportsDirect d m c2f).foldl accumStep []

/-- fileReportsFromClasses lists the first pass of
`buildFileLevelCoupling`: class-level entries between CLASS nodes of
distinct parent files contribute between the files. -/
def fileReportsFromClasses (m : NodeMap) (classLinks : LinkMap) :
    List LinkReport :=
  classLinks.filterMap fun e =>
    let ((srcClassId, targetClassId), linkData) := e
    match getK m srcClassId, getK m targetClassId with
    | some srcClass, some targetClass =>
        if srcClass.type = NodeType.CLASS ∧ targetClass.type = NodeType.CLASS then
          match srcClass.parentId, targetClass.parentId with
          | some srcFileId, some targetFileId =>
              if srcFileId ≠ targetFileId then
                some { src := srcFileId, tgt := targetFileId,
                       count := linkData.count, direction := linkData.direction }
              else none
          | _, _ => none
        else none
    | _, _ => none

/-- fileReportsFromFunctions lists the second pass of
`buildFileLevelCoupling`: function-level entries whose endpoints are both
standalone (parented to FILE nodes) contribute between distinct files. -/
def fileReportsFromFunctions (m : NodeMap) (functionLinks : LinkMap) :
    List LinkReport :=
  functionLinks.filterMap fun e =>
    let ((srcFuncId, targetFuncId), linkData) := e
    match getK m srcFuncId, getK m targetFuncId with
    | some srcFunc, some targetFunc =>
        match srcFunc.parentId, targetFunc.parentId with
        | some srcFileId, some targetFileId =>
            match getK m srcFileId, getK m targetFileId with
            | some srcParent, some targetParent =>
                if srcParent.type = NodeType.FILE ∧ targetParent.type = NodeType.FILE ∧
                   srcFileId ≠ targetFileId then
                  some { src := srcFileId, tgt := targetFileId,
                         count := linkData.count, direction := linkData.direction }
                else none
            | _, _ => none
        | _, _ => none
    | _, _ => none

/-- buildFileLinks is the `fileLinks` map of `buildFileLevelCoupling`. -/
def buildFileLinks (m : NodeMap) (classLinks functionLinks : LinkMap) : LinkMap :=
  (fileReportsFromClasses m classLinks
    ++ fileReportsFromFunctions m functionLinks).foldl accumStep []

/-- HierarchicalData mirrors the `HierarchicalData` interface. -/
structure HierarchicalData : Type where
  nodes : List GraphNode
  links : List GraphLink
deriving DecidableEq, Repr

/-- methodCallLinks is the method-level CALL link list emitted by
`buildMethodLevelCoupling` inside `buildGraph`. -/
def methodCallLinks (d : MetricData) : List GraphLink :=
  let m := buildDirectories d
  let (m, c2f) := buildClassToFileMap d m
  let (m, _) := buildFunctionToFileMap d m
  linksOfMap (buildMethodLinks d m c2f) LinkType.CALL

/-- functionCallLinks is the function-level CALL link list emitted by
`buildFunctionLevelCoupling` inside `buildGraph`. -/
def functionCallLinks (d : MetricData) : List GraphLink :=
  let m := buildDirectories d
  let (m, _) := buildClassToFileMap d m
  let (m, f2f) := buildFunctionToFileMap d m
  linksOfMap (buildFunctionLinks d m f2f) LinkType.CALL

/-- classCouplingLinks is the class-level COUPLING link list emitted by
`buildClassLevelCoupling` inside `buildGraph`. -/
def classCouplingLinks (d : MetricData) : List GraphLink :=
  let m := buildDirectories d
  let (m, c2f) := buildClassToFileMap d m
  let (m, f2f) := buildFunctionToFileMap d m
  let methodLinks := buildMethodLinks d m c2f
  let functionLinks := buildFunctionLinks d m f2f
  linksOfMap (buildClassLinks d m c2f methodLinks functionLinks) LinkType.COUPLING

/-- fileDependencyLinks is the aggregated file-level DEPENDENCY link list
emitted by `buildFileLevelCoupling` inside `buildGraph`. -/
def fileDependencyLinks (d : MetricData) : List GraphLink :=
  let m := buildDirectories d
  let (m, c2f) := buildClassToFileMap d m
  let (m, f2f) := buildFunctionToFileMap d m
  let methodLinks := buildMethodLinks d m c2f
  let functionLinks := buildFunctionLinks d m f2f
  let classLinks := buildClassLinks d m c2f methodLinks functionLinks
  linksOfMap (buildFileLinks m classLinks functionLinks) LinkType.DEPENDENCY

/-- buildGraph models `buildGraph`: directories and files first (with the
raw import links), then classes and methods, then standalone functions,
then the four aggregation passes; nodes are the registry values and links
are emitted in pass order. -/
def buildGraph (d : MetricData) : HierarchicalData :=
  let m₀ := buildDirectories d
  let deps := depLinksOf d m₀
  let (m₁, c2f) := buildClassToFileMap d m₀
  let (m₂, f2f) := buildFunctionToFileMap d m₁
  let methodLinks := buildMethodLinks d m₂ c2f
  let functionLinks := buildFunctionLinks d m₂ f2f
  let classLinks := buildClassLinks d m₂ c2f methodLinks functionLinks
  let fileLinks := buildFileLinks m₂ classLinks functionLinks
  { nodes := valsK m₂,
    links := deps
      ++ linksOfMap methodLinks LinkType.CALL
      ++ linksOfMap functionLinks LinkType.CALL
      ++ linksOfMap classLinks LinkType.COUPLING
      ++ linksOfMap fileLinks LinkType.DEPENDENCY }

/-! Metric fetch layer.

The service variants issue one request per metric name through
`forkJoin`, each piped through `catchError` so that an individual
failure is replaced by an empty default; the joined record is handed to
`buildGraph` once every request has settled. The request name lists and
the per-metric settlement are modelled below; the network itself is not.
-/

/-- requestedMetricsCoupling is the metric name list requested by
`loadHierarchy` of the coupling-refactor service variant: five requests
through the generic metric endpoint (no loc-sloc and no dependencies
request). -/
def requestedMetricsCoupling : List String :=
  ["files", "classes-per-file", "class-coupling", "functions-per-file",
   "function-coupling"]

/-- requestedMetricsFull is the metric name list requested by
`loadHierarchy` of the full service variant: the five generic metric
requests plus the dedicated loc-sloc and dependencies requests. -/
def requestedMetricsFull : List String :=
  ["files", "loc-sloc", "dependencies", "classes-per-file",
   "class-coupling", "functions-per-file", "function-coupling"]

/-- settle models one request piped through catchError: the payload on
success, the empty-shaped default on failure. -/
def settle {α : Type} (response : Except Unit α) (default : α) : α :=
  match response with
  | Except.ok v => v
  | Except.error _ => default

/-- FetchOutcomes carries the settled-or-failed outcome of each request
of the full service variant. -/
structure FetchOutcomes : Type where
  files : Except Unit (Option (List String))
  locByFile : Except Unit (List (String × Nat))
  dependencies : Except Unit (List (String × List String))
  classes : Except Unit (List (String × List (String × List MethodEntry)))
  classCoupling : Except Unit (List (String × List (String × List MethodEntry)))
  funcs : Except Unit (List (String × List String))
  funcCoupling : Except Unit (List (String × List (String × FnCouplingEntry)))

/-- settleOutcomes substitutes the empty default of each failed request:
a failed files request settles to the non-array shape (so the path list
falls back to the dependency keys), loc-sloc to an empty byFile record,
dependencies to an empty graph, and the generic metrics to an empty
result record. -/
def settleOutcomes (r : FetchOutcomes) : MetricData :=
  { files := settle r.files none,
    locByFile := settle r.locByFile [],
    dependencies := settle r.dependencies [],
    classes := settle r.classes [],
    classCoupling := settle r.classCoupling [],
    funcs := settle r.funcs [],
    funcCoupling := settle r.funcCoupling [] }

/-- loadHierarchy models the data flow of `loadHierarchy` of the full
service variant: the aggregate graph is built from the record of all
settled outcomes. -/
def loadHierarchy (r : FetchOutcomes) : HierarchicalData :=
  buildGraph (settleOutcomes r)

/-! View controller.

The hierarchical-graph component keeps the full registry `allNodesMap`
and raw link list from the service, a visible node list, and recomputes
visible links by resolving every raw endpoint to its nearest visible
ancestor. The module-function-graph component has the same structure
with one difference in `updateLinks`: it increments the value of an
already-merged visible link instead of ignoring the duplicate. Render
nodes are modelled by their ids; positions are outside the model. -/

/-- buildNodesIndex models the loadGraph indexing
`data.nodes.forEach(n => allNodesMap.set(n.id, n))`. -/
def buildNodesIndex (nodes : List GraphNode) : NodeMap :=
  nodes.foldl (fun m n => setK m n.id n) []

/-- rootIds models the initial visible set: nodes with no parent. -/
def rootIds (nodes : List GraphNode) : List String :=
  (nodes.filter (fun n => n.parentId = none)).map (·.id)

/-- isDescendant models the recursive descendant test of the collapse
handler: walk the parent chain of the node and compare against the
ancestor id. The fuel bounds the walk; `collapse` passes the registry
size, which covers every acyclic parent chain. -/
def isDescendant (m : NodeMap) : Nat → String → String → Bool
  | 0, _, _ => false
  | fuel + 1, id, ancestorId =>
      match getK m id with
      | none => false
      | some n =>
          match n.parentId with
          | none => false
          | some p => if p = ancestorId then true else isDescendant m fuel p ancestorId

/-- expand models handleNodeClick followed by expand: a node without
children is ignored; otherwise the node is removed from the visible list
and all of its children are appended. -/
def expand (m : NodeMap) (vis : List String) (p : String) : List String :=
  match getK m p with
  | none => vis
  | some n =>
      if n.children.isEmpty then vis
      else vis.filter (fun i => i ≠ p) ++ n.children

/-- collapse models the collapse handler: every visible descendant of the
node is removed and the node itself is re-added. -/
def collapse (m : NodeMap) (vis : List String) (p : String) : List String :=
  vis.filter (fun i => !(isDescendant m m.length i p)) ++ [p]

/-- ViewOp is one user transition of the view controller. -/
inductive ViewOp : Type
  | expandOp (id : String)
  | collapseOp (id : String)

/-- applyOp applies one transition to the visible list. -/
def applyOp (m : NodeMap) (vis : List String) : ViewOp → List String
  | ViewOp.expandOp id => expand m vis id
  | ViewOp.collapseOp id => collapse m vis id

/-- runOps applies a transition sequence from a starting visible list. -/
def runOps (m : NodeMap) (vis : List String) (ops : List ViewOp) : List String :=
  ops.foldl (applyOp m) vis

/-- findVisible models the ancestor resolution of updateLinks of the
hierarchical-graph component: return the id once it is visible, else step
to the parent; the walk stops when the chain leaves the registry. -/
def findVisible (m : NodeMap) (vis : List String) : Nat → String → Option String
  | 0, _ => none
  | fuel + 1, id =>
      if vis.contains id then some id
      else
        match getK m id with
        | none => none
        | some n =>
            match n.parentId with
            | none => none
            | some p => findVisible m vis fuel p

/-- VisLink models a recomputed visible link (RenderLink), with its
endpoint nodes referenced by id. -/
structure VisLink : Type where
  source : String
  target : String
  value : Nat
deriving DecidableEq, Repr

/-- resolveHG resolves one raw link of the hierarchical-graph updateLinks
to its visible ordered pair: both endpoints must resolve to visible
ancestors and the resolved endpoints must differ. -/
def resolveHG (m : NodeMap) (vis : List String) (l : GraphLink) :
    Option (String × String) :=
  match findVisible m vis (m.length + 1) l.source,
        findVisible m vis (m.length + 1) l.target with
  | some s, some t => if s ≠ t then some (s, t) else none
  | _, _ => none

/-- hgStep processes one raw link of the hierarchical-graph updateLinks:
a resolved pair not seen before is inserted with value 1; a pair already
present is left unchanged. -/
def hgStep (m : NodeMap) (vis : List String)
    (acc : JsMap (String × String) VisLink) (l : GraphLink) :
    JsMap (String × String) VisLink :=
  match resolveHG m vis l with
  | some (s, t) =>
      if hasK acc (s, t) then acc
      else setK acc (s, t) { source := s, target := t, value := 1 }
  | none => acc

/-- updateLinksHG models updateLinks of the hierarchical-graph component:
raw links resolving to the same visible ordered pair are merged into one
visible link of value 1; duplicates are ignored. -/
def updateLinksHG (m : NodeMap) (vis : List String) (allLinks : List GraphLink) :
    List VisLink :=
  (allLinks.foldl (hgStep m vis) []).map (·.2)

/-- findVisibleLoopMF is the while loop of the module-function-graph
findVisible: step from the current node to its parent until a visible
parent id is found. -/
def findVisibleLoopMF (m : NodeMap) (vis : List String) :
    Nat → Option GraphNode → Option String
  | _, none => none
  | 0, some _ => none
  | fuel + 1, some n =>
      match n.parentId with
      | none => none
      | some p =>
          if vis.contains p then some p else findVisibleLoopMF m vis fuel (getK m p)

/-- findVisibleMF models the module-function-graph ancestor resolution:
the id itself when visible, otherwise the first visible parent id along
the chain. -/
def findVisibleMF (m : NodeMap) (vis : List String) (id : String) : Option String :=
  if vis.contains id then some id
  else findVisibleLoopMF m vis (m.length + 1) (getK m id)

/-- resolveMF resolves one raw link of the module-function-graph
updateLinks to its visible ordered pair. -/
def resolveMF (m : NodeMap) (vis : List String) (l : GraphLink) :
    Option (String × String) :=
  match findVisibleMF m vis l.source, findVisibleMF m vis l.target with
  | some s, some t => if s ≠ t then some (s, t) else none
  | _, _ => none

/-- mfStep processes one raw link of the module-function-graph
updateLinks: a resolved pair not seen before is inserted with value 1; a
pair already present has its value incremented. -/
def mfStep (m : NodeMap) (vis : List String)
    (acc : JsMap (String × String) VisLink) (l : GraphLink) :
    JsMap (String × String) VisLink :=
  match resolveMF m vis l with
  | some (s, t) =>
      match getK acc (s, t) with
      | none => setK acc (s, t) { source := s, target := t, value := 1 }
      | some v => setK acc (s, t) { v with value := v.value + 1 }
  | none => acc

/-- updateLinksMF models updateLinks of the module-function-graph
component: like updateLinksHG, but a raw link resolving to an
already-present visible pair increments that link value by one. -/
def updateLinksMF (m : NodeMap) (vis : List String) (allLinks : List GraphLink) :
    List VisLink :=
  (allLinks.foldl (mfStep m vis) []).map (·.2)

/-! Helper definitions used by the theorem statements. -/

/-- keysOf lists the keys of a JsMap in entry order. -/
def keysOf {κ α : Type} (m : JsMap κ α) : List κ := m.map (·.1)

/-- countOf reads the accumulated count of a directed pair, zero when the
pair has no entry. -/
def countOf (lm : LinkMap) (k : String × String) : Nat :=
  match getK lm k with
  | some a => a.count
  | none => 0

/-- reportKey is the directed pair a report accumulates against. -/
def reportKey (r : LinkReport) : String × String := (r.src, r.tgt)

/-- sumReports is the total count reported against a directed pair by a
report list. -/
def sumReports (rs : List LinkReport) (k : String × String) : Nat :=
  ((rs.filter (fun r => reportKey r = k)).map (·.count)).sum

/-- methodReportsOf is the method-level report list of `buildGraph`:
`methodReports` evaluated against the registry and class index that
`buildGraph` hands to `buildMethodLevelCoupling`. -/
def methodReportsOf (d : MetricData) : List LinkReport :=
  let m := buildDirectories d
  let (m, c2f) := buildClassToFileMap d m
  let (m, _) := buildFunctionToFileMap d m
  methodReports d m c2f

/-- functionReportsOf is the function-level report list of `buildGraph`. -/
def functionReportsOf (d : MetricData) : List LinkReport :=
  let m := buildDirectories d
  let (m, _) := buildClassToFileMap d m
  let (m, f2f) := buildFunctionToFileMap d m
  functionReports d m f2f

/-- resolvedPairsHG lists, in order, the distinct-endpoint visible pairs
that the raw links of the hierarchical-graph updateLinks resolve to (one
occurrence per raw link). -/
def resolvedPairsHG (m : NodeMap) (vis : List String) (allLinks : List GraphLink) :
    List (String × String) :=
  allLinks.filterMap (resolveHG m vis)

/-- resolvedPairsMF is the module-function-graph counterpart of
resolvedPairsHG. -/
def resolvedPairsMF (m : NodeMap) (vis : List String) (allLinks : List GraphLink) :
    List (String × String) :=
  allLinks.filterMap (resolveMF m vis)

/-- valueAt reads the merged value of a visible pair in an updateLinks
accumulator, zero when the pair has no entry. -/
def valueAt (acc : JsMap (String × String) VisLink) (k : String × String) : Nat :=
  match getK acc k with
  | some v => v.value
  | none => 0

/-! Concrete instances used by counterexamples and witnesses. -/

/-- barMember is the classes-per-file member entry of method bar. -/
def barMember : MethodEntry := { key := some "bar", fanOut := [], fanIn := [] }

/-- quxMember is the classes-per-file member entry of method qux. -/
def quxMember : MethodEntry := { key := some "qux", fanOut := [], fanIn := [] }

/-- ctorMember is a classes-per-file member entry named constructor. -/
def ctorMember : MethodEntry := { key := some "constructor", fanOut := [], fanIn := [] }

/-- barFanOut is the class-coupling entry of bar reporting fan-out
Baz.qux with count 3. -/
def barFanOut : MethodEntry :=
  { key := some "bar", fanOut := [("Baz", [("qux", 3)])], fanIn := [] }

/-- quxFanIn is the class-coupling entry of qux reporting fan-in Foo.bar
with count 3 (the callee-side report of the same interaction). -/
def quxFanIn : MethodEntry :=
  { key := some "qux", fanOut := [], fanIn := [("Foo", [("bar", 3)])] }

/-- c2Input is the scenario of the spec: classes Foo (method bar) in f1
and Baz (method qux) in f2, with the class-coupling metric reporting the
fan-out of bar as Baz.qux count 3 and nothing else. -/
def c2Input : MetricData :=
  { files := some ["f1", "f2"], locByFile := [], dependencies := [],
    classes := [("f1", [("Foo", [barMember])]), ("f2", [("Baz", [quxMember])])],
    classCoupling := [("f1", [("Foo", [barFanOut])])],
    funcs := [], funcCoupling := [] }

/-- c1Input is c2Input with the callee side also reporting the same
interaction as fan-in of qux from Foo.bar with count 3. -/
def c1Input : MetricData :=
  { c2Input with
    classCoupling := [("f1", [("Foo", [barFanOut])]),
                      ("f2", [("Baz", [quxFanIn])])] }

/-- c4Input is a dependency payload in which a file imports itself. -/
def c4Input : MetricData :=
  { files := some ["a.ts"], locByFile := [],
    dependencies := [("a.ts", ["a.ts"])],
    classes := [], classCoupling := [], funcs := [], funcCoupling := [] }

/-- c8Input is a path list in which one file path equals the directory
prefix of another file path. -/
def c8Input : MetricData :=
  { files := some ["a/x", "a"], locByFile := [], dependencies := [],
    classes := [], classCoupling := [], funcs := [], funcCoupling := [] }

/-- viewNode builds a registry node for the view-controller instances
(only id, parentId and children matter to the controller). -/
def viewNode (id : String) (parentId : Option String) (children : List String) :
    GraphNode :=
  { id := id, label := id, type := NodeType.DIRECTORY, parentId := parentId,
    children := children, loc := 0, depth := 0 }

/-- c3Nodes is a two-root registry for the updateLinks instances. -/
def c3Nodes : List GraphNode :=
  [viewNode "a" none [], viewNode "b" none []]

/-- c3Map is the indexed registry of c3Nodes. -/
def c3Map : NodeMap := buildNodesIndex c3Nodes

/-- c3RawLinks is a raw link list with two parallel links of weight 5
between the visible nodes a and b. -/
def c3RawLinks : List GraphLink :=
  [{ source := "a", target := "b", value := 5, type := LinkType.CALL,
     direction := some Direction.fanOut },
   { source := "a", target := "b", value := 5, type := LinkType.CALL,
     direction := some Direction.fanOut }]

/-- c5Nodes is a registry with one root p owning two children c1 and c2. -/
def c5Nodes : List GraphNode :=
  [viewNode "p" none ["c1", "c2"], viewNode "c1" (some "p") [],
   viewNode "c2" (some "p") []]

/-- c5Map is the indexed registry of c5Nodes. -/
def c5Map : NodeMap := buildNodesIndex c5Nodes

/-- joinSegs rebuilds the cumulative path id from its slash-free
segments, mirroring the currentPath accumulation of the directory walk
(the empty list joins to the empty string). -/
def joinSegs : List String → String
  | [] => ""
  | s :: rest => rest.foldl (fun acc part => acc ++ "/" ++ part) s

/-- pathSegs is the segment list of a path, as the directory walk splits
it. -/
def pathSegs (p : String) : List String := splitOnChar '/' p

/-- SegsOk states that every segment of every listed segment list is a
nonempty string (so the currentPath accumulator never collapses back to
the empty string during a walk). -/
def SegsOk (PP : List (List String)) : Prop :=
  ∀ L ∈ PP, ∀ s ∈ L, s ≠ ""

/-- JoinOk states that the joined prefix ids of the listed segment lists
are unambiguous: equal joined ids come from equal segment prefixes. -/
def JoinOk (PP : List (List String)) : Prop :=
  ∀ L ∈ PP, ∀ M ∈ PP, ∀ i j : Nat, 1 ≤ i → i ≤ L.length → 1 ≤ j →
    j ≤ M.length → joinSegs (L.take i) = joinSegs (M.take j) →
    L.take i = M.take j

/-- hasRep states that a key is the joined id of a nonempty prefix of one
of the listed segment lists. -/
def hasRep (PP : List (List String)) (k : String) : Prop :=
  ∃ L ∈ PP, ∃ i : Nat, 1 ≤ i ∧ i ≤ L.length ∧ k = joinSegs (L.take i)

/-- canonAt states that a registry entry sits at its canonical prefix
position of one of the listed segment lists: its key is the joined
prefix of length i, its depth is i minus one, and its parentId is the
joined prefix one shorter (none at the root). -/
def canonAt (PP : List (List String)) (e : String × GraphNode) : Prop :=
  ∃ L ∈ PP, ∃ i : Nat, 1 ≤ i ∧ i ≤ L.length ∧
    e.1 = joinSegs (L.take i) ∧ e.2.depth = i - 1 ∧
    (i = 1 → e.2.parentId = none) ∧
    (2 ≤ i → e.2.parentId = some (joinSegs (L.take (i - 1))))

/-- DirInv is the registry invariant of the directory walk: keys are
unique and characterised by the joined prefixes of the processed segment
lists; every node carries its key as id; children lists are duplicate
free; a child link points back via parentId; a parentId points to a
registered parent that lists the node among its children one depth level
up; and every entry sits at its canonical prefix position. -/
def DirInv (PP : List (List String)) (m : NodeMap) : Prop :=
  (keysOf m).Nodup ∧
  (∀ k, hasK m k = true ↔ hasRep PP k) ∧
  (∀ e ∈ m, e.2.id = e.1) ∧
  (∀ e ∈ m, e.2.children.Nodup) ∧
  (∀ e ∈ m, ∀ c ∈ e.2.children, ∃ cn, getK m c = some cn ∧
    cn.parentId = some e.1) ∧
  (∀ e ∈ m, ∀ pr, e.2.parentId = some pr → ∃ pn, getK m pr = some pn ∧
    e.1 ∈ pn.children ∧ pn.depth + 1 = e.2.depth) ∧
  (∀ e ∈ m, canonAt PP e)

/-- consistentMap packages the registry consistency properties of the
claim: deduplicated keys, id-keyed nodes, duplicate-free children
arrays, and children arrays consistent with parentId back-references
with depth increasing by one along containment (a forest). -/
def consistentMap (m : NodeMap) : Prop :=
  (keysOf m).Nodup ∧
  (∀ e ∈ m, e.2.id = e.1) ∧
  (∀ e ∈ m, e.2.children.Nodup) ∧
  (∀ e ∈ m, ∀ c ∈ e.2.children, ∃ cn, getK m c = some cn ∧
    cn.parentId = some e.1) ∧
  (∀ e ∈ m, ∀ pr, e.2.parentId = some pr → ∃ pn, getK m pr = some pn ∧
    e.1 ∈ pn.children ∧ pn.depth + 1 = e.2.depth)

/-- c7Input is a classes-per-file payload declaring the same class name C
in the two files fA and fB (no members). -/
def c7Input : MetricData :=
  { files := some ["fA", "fB"], locByFile := [], dependencies := [],
    classes := [("fA", [("C", [])]), ("fB", [("C", [])])],
    classCoupling := [], funcs := [], funcCoupling := [] }

/-- c7BaseMap is a registry holding the two file nodes fA and fB. -/
def c7BaseMap : NodeMap :=
  [("fA", viewNode "fA" none []), ("fB", viewNode "fB" none [])]

/-- c10Input parametrises the constructor-method scenario: one file f
whose classes-per-file entry declares class C with a single member named
constructor; the other metric payloads are arbitrary except that no
standalone functions are listed. -/
def c10Input (f C : String) (locs : List (String × Nat))
    (deps : List (String × List String))
    (cc : List (String × List (String × List MethodEntry)))
    (fc : List (String × List (String × FnCouplingEntry))) : MetricData :=
  { files := some [f], locByFile := locs, dependencies := deps,
    classes := [(f, [(C, [ctorMember])])], classCoupling := cc,
    funcs := [], funcCoupling := fc }

/-- prefs lists the nonempty prefixes of a segment list. -/
def prefs (L : List String) : List (List String) :=
  (List.range L.length).map (fun i => L.take (i + 1))

/-- hasRepB is the executable form of hasRep. -/
def hasRepB (PP : List (List String)) (k : String) : Bool :=
  PP.any (fun L => (prefs L).any (fun A => joinSegs A == k))

/-- joinOkB is the executable form of JoinOk: every two nonempty
prefixes of the listed segment lists with equal joined ids are equal. -/
def joinOkB (PP : List (List String)) : Bool :=
  (PP.flatMap prefs).all (fun X => (PP.flatMap prefs).all
    (fun Y => !(joinSegs X == joinSegs Y) || (X == Y)))

/-- freshOk walks the file paths in input order and checks that no path
equals a joined directory prefix id of an earlier path (the overwrite
precondition of the unconditional file node insert). -/
def freshOk (done : List (List String)) : List String → Bool
  | [] => true
  | p :: rest => !(hasRepB done p) && freshOk (done ++ [pathSegs p]) rest

/-- c8WitnessInput is a path list with a shared directory on which the
corrected registry consistency property is evaluated. -/
def c8WitnessInput : MetricData :=
  { files := some ["a/x", "a/y", "b"], locByFile := [], dependencies := [],
    classes := [], classCoupling := [], funcs := [], funcCoupling := [] }

/-! Generic lemmas about the JsMap operations. -/

theorem getK_setK_self {κ α : Type} [DecidableEq κ] (m : JsMap κ α) (k : κ) (v : α) :
    getK (setK m k v) k = some v := by
  induction m with
  | nil => simp [setK, getK]
  | cons hd t ih =>
      obtain ⟨k₁, v₁⟩ := hd
      simp only [setK]
      by_cases hk : k₁ = k
      · simp [getK, hk]
      · simp [getK, hk, ih]

theorem getK_setK_ne {κ α : Type} [DecidableEq κ] (m : JsMap κ α) (k k' : κ) (v : α)
    (h : k' ≠ k) : getK (setK m k v) k' = getK m k' := by
  have h' : ¬ k = k' := fun e => h e.symm
  induction m with
  | nil => simp [setK, getK, h']
  | cons hd t ih =>
      obtain ⟨k₁, v₁⟩ := hd
      simp only [setK]
      by_cases hk : k₁ = k
      · subst hk
        simp [getK, h']
      · simp only [if_neg hk, getK]
        by_cases hk' : k₁ = k'
        · simp [hk']
        · simp [hk', ih]

theorem hasK_setK {κ α : Type} [DecidableEq κ] (m : JsMap κ α) (k k' : κ) (v : α) :
    hasK (setK m k v) k' = (hasK m k' || decide (k' = k)) := by
  by_cases hk : k' = k
  · subst hk
    simp [hasK, getK_setK_self]
  · simp [hasK, getK_setK_ne m k k' v hk, hk]

theorem mem_keysOf_iff_hasK {κ α : Type} [DecidableEq κ] (m : JsMap κ α) (k : κ) :
    k ∈ keysOf m ↔ hasK m k = true := by
  induction m with
  | nil => simp [keysOf, hasK, getK]
  | cons hd t ih =>
      obtain ⟨k₁, v₁⟩ := hd
      by_cases hk : k₁ = k
      · simp [keysOf, hasK, getK, hk]
      · have hk' : ¬ k = k₁ := fun e => hk e.symm
        simp only [keysOf, List.map_cons, List.mem_cons]
        rw [show List.map (fun x => x.1) t = keysOf t from rfl]
        simp [hasK, getK, hk, hk', ih]

theorem mem_keysOf_setK {κ α : Type} [DecidableEq κ] (m : JsMap κ α) (k k' : κ) (v : α) :
    k' ∈ keysOf (setK m k v) ↔ k' ∈ keysOf m ∨ k' = k := by
  rw [mem_keysOf_iff_hasK, mem_keysOf_iff_hasK, hasK_setK]
  by_cases hk : k' = k <;> simp [hk]

theorem keysOf_cons {κ α : Type} (k₁ : κ) (v₁ : α) (t : JsMap κ α) :
    keysOf ((k₁, v₁) :: t) = k₁ :: keysOf t := rfl

theorem nodup_keysOf_setK {κ α : Type} [DecidableEq κ] (m : JsMap κ α) (k : κ) (v : α)
    (h : (keysOf m).Nodup) : (keysOf (setK m k v)).Nodup := by
  induction m with
  | nil => simp [setK, keysOf]
  | cons hd t ih =>
      obtain ⟨k₁, v₁⟩ := hd
      rw [keysOf_cons] at h
      obtain ⟨h1, h2⟩ := List.nodup_cons.mp h
      by_cases hk : k₁ = k
      · rw [show setK ((k₁, v₁) :: t) k v = (k₁, v) :: t from by simp [setK, hk],
          keysOf_cons]
        exact List.nodup_cons.mpr ⟨h1, h2⟩
      · rw [show setK ((k₁, v₁) :: t) k v = (k₁, v₁) :: setK t k v from by
            simp [setK, hk],
          keysOf_cons]
        refine List.nodup_cons.mpr ⟨fun hmem => ?_, ih h2⟩
        rcases (mem_keysOf_setK t k k₁ v).mp hmem with h' | h'
        · exact h1 h'
        · exact hk h'

theorem getK_eq_none_iff {κ α : Type} [DecidableEq κ] (m : JsMap κ α) (k : κ) :
    getK m k = none ↔ k ∉ keysOf m := by
  rw [mem_keysOf_iff_hasK]
  simp [hasK, Option.isSome_iff_ne_none]

theorem mem_of_getK_eq_some {κ α : Type} [DecidableEq κ] (m : JsMap κ α)
    (k : κ) (v : α) (h : getK m k = some v) : (k, v) ∈ m := by
  induction m with
  | nil => simp [getK] at h
  | cons hd t ih =>
      obtain ⟨k₁, v₁⟩ := hd
      by_cases hk : k₁ = k
      · subst hk
        have hv : v₁ = v := by simpa [getK] using h
        subst hv
        exact List.mem_cons_self _ _
      · simp only [getK, if_neg hk] at h
        exact List.mem_cons_of_mem _ (ih h)

theorem getK_filter_eq_of_nodup {κ α : Type} [DecidableEq κ] (m : JsMap κ α)
    (k : κ) (v : α) (hn : (keysOf m).Nodup) (h : getK m k = some v) :
    m.filter (fun e => e.1 = k) = [(k, v)] := by
  induction m with
  | nil => simp [getK] at h
  | cons hd t ih =>
      obtain ⟨k₁, v₁⟩ := hd
      rw [keysOf_cons] at hn
      obtain ⟨h1, h2⟩ := List.nodup_cons.mp hn
      by_cases hk : k₁ = k
      · subst hk
        have hv : v₁ = v := by simpa [getK] using h
        subst hv
        have hnil : t.filter (fun e => e.1 = k₁) = [] := by
          refine List.filter_eq_nil_iff.mpr fun e he => ?_
          simp only [decide_eq_true_eq]
          intro hek
          exact h1 (hek ▸ List.mem_map_of_mem _ he)
        simp [List.filter_cons, hnil]
      · simp only [getK, if_neg hk] at h
        simp [List.filter_cons, hk, ih h2 h]

/-! Lemmas about the accumulation pattern of the coupling passes. -/

theorem countOf_accumStep (m : LinkMap) (r : LinkReport) (k : String × String) :
    countOf (accumStep m r) k = countOf m k + (if reportKey r = k then r.count else 0) := by
  by_cases hk : reportKey r = k
  · unfold reportKey at hk
    subst hk
    unfold countOf accumStep
    rw [getK_setK_self]
    cases h : getK m (r.src, r.tgt) <;> simp [h, reportKey]
  · unfold countOf accumStep
    rw [getK_setK_ne _ _ _ _ (fun e => hk (by simpa [reportKey] using e.symm))]
    simp [hk]

theorem countOf_foldl_accum (rs : List LinkReport) (m : LinkMap) (k : String × String) :
    countOf (rs.foldl accumStep m) k = countOf m k + sumReports rs k := by
  induction rs generalizing m with
  | nil => simp [sumReports]
  | cons r rest ih =>
      rw [List.foldl_cons, ih, countOf_accumStep]
      unfold sumReports
      by_cases h : reportKey r = k
      · simp [List.filter_cons, h]
        omega
      · simp [List.filter_cons, h]

theorem hasK_accumStep (m : LinkMap) (r : LinkReport) (k : String × String) :
    hasK (accumStep m r) k = (hasK m k || decide (reportKey r = k)) := by
  unfold accumStep
  rw [hasK_setK]
  by_cases h : reportKey r = k
  · simp [reportKey] at h
    simp [h, reportKey]
  · have h' : ¬ k = (r.src, r.tgt) := fun e => h (by simpa [reportKey] using e.symm)
    have h'' : ¬ reportKey r = k := h
    simp [h', h'']

theorem hasK_foldl_accum (rs : List LinkReport) (m : LinkMap) (k : String × String) :
    hasK (rs.foldl accumStep m) k
      = (hasK m k || rs.any (fun r => decide (reportKey r = k))) := by
  induction rs generalizing m with
  | nil => simp
  | cons r rest ih =>
      rw [List.foldl_cons, ih, hasK_accumStep]
      simp [Bool.or_assoc]

theorem mem_keys_foldl_accum (rs : List LinkReport) (m : LinkMap) (k : String × String) :
    k ∈ keysOf (rs.foldl accumStep m) ↔
      k ∈ keysOf m ∨ ∃ r ∈ rs, reportKey r = k := by
  rw [mem_keysOf_iff_hasK, hasK_foldl_accum, Bool.or_eq_true, ← mem_keysOf_iff_hasK,
    List.any_eq_true]
  simp

theorem nodup_keys_foldl_accum (rs : List LinkReport) (m : LinkMap)
    (h : (keysOf m).Nodup) : (keysOf (rs.foldl accumStep m)).Nodup := by
  induction rs generalizing m with
  | nil => exact h
  | cons r rest ih =>
      rw [List.foldl_cons]
      exact ih _ (by unfold accumStep; exact nodup_keysOf_setK _ _ _ h)

theorem mem_linksOfMap (lm : LinkMap) (t : LinkType) (l : GraphLink) :
    l ∈ linksOfMap lm t ↔
      ∃ e ∈ lm, l = { source := e.1.1, target := e.1.2, value := e.2.count,
                      type := t, direction := some e.2.direction } := by
  unfold linksOfMap
  rw [List.mem_map]
  constructor
  · rintro ⟨e, he, rfl⟩
    exact ⟨e, he, rfl⟩
  · rintro ⟨e, he, rfl⟩
    exact ⟨e, he, rfl⟩

theorem linksOfMap_src_ne_tgt (lm : LinkMap) (t : LinkType)
    (h : ∀ k ∈ keysOf lm, k.1 ≠ k.2) :
    ∀ l ∈ linksOfMap lm t, l.source ≠ l.target := by
  intro l hl
  rcases (mem_linksOfMap lm t l).mp hl with ⟨e, he, rfl⟩
  exact h e.1 (List.mem_map_of_mem _ he)

/-! C2: the worked scenario of the spec. -/

/-- C2 counterexample: on the scenario input, the class-level COUPLING
edge emitted by buildGraph has value 6, and the value-3 class edge the
claim specifies is absent (the method aggregation pass and the direct
class-coupling pass both contribute 3). -/
theorem c2_counterexample :
    ((buildGraph c2Input).links.filter
        (fun l => l.type = LinkType.COUPLING)).map GraphLink.value = [6] ∧
      ({ source := "f1::Foo", target := "f2::Baz", value := 3,
         type := LinkType.COUPLING, direction := some Direction.fanOut } : GraphLink)
        ∉ (buildGraph c2Input).links := by
  decide

/-- C2 amended: on the scenario input, buildGraph emits exactly the
method-level CALL edge f1::Foo::bar to f2::Baz::qux with value 3, the
class-level COUPLING edge f1::Foo to f2::Baz with value 6 (3 from the
aggregated method edge plus 3 from the direct class-coupling pass), and
the file-level DEPENDENCY edge f1 to f2 with value 6. -/
theorem c2_theorem :
    (buildGraph c2Input).links =
      [{ source := "f1::Foo::bar", target := "f2::Baz::qux", value := 3,
         type := LinkType.CALL, direction := some Direction.fanOut },
       { source := "f1::Foo", target := "f2::Baz", value := 6,
         type := LinkType.COUPLING, direction := some Direction.fanOut },
       { source := "f1", target := "f2", value := 6,
         type := LinkType.DEPENDENCY, direction := some Direction.fanOut }] := by
  decide

/-! C4: self-loop dropping per level. -/

theorem methodReports_src_ne_tgt (d : MetricData) (m : NodeMap) (c2f : ClassFiles) :
    ∀ r ∈ methodReports d m c2f, r.src ≠ r.tgt := by
  intro r hr
  simp only [methodReports, List.mem_flatMap] at hr
  obtain ⟨fe, _, hr⟩ := hr
  obtain ⟨file, clsMap⟩ := fe
  simp only at hr
  obtain ⟨ce, _, hr⟩ := hr
  obtain ⟨className, methods⟩ := ce
  simp only at hr
  split at hr
  · simp only [List.mem_flatMap] at hr
    obtain ⟨meth, _, hr⟩ := hr
    split at hr
    · rw [List.mem_append] at hr
      rcases hr with hr | hr
      · simp only [List.mem_flatMap] at hr
        obtain ⟨te, _, hr⟩ := hr
        obtain ⟨targetClassName, targetMethods⟩ := te
        simp only at hr
        split at hr
        · simp at hr
        · split at hr
          · simp only [List.mem_filterMap] at hr
            obtain ⟨tm, _, htm⟩ := hr
            obtain ⟨targetMethodName, count⟩ := tm
            simp only at htm
            split at htm
            · rename_i hcond
              obtain ⟨rfl⟩ := Option.some.inj htm
              exact hcond.2
            · simp at htm
          · simp at hr
      · simp only [List.mem_flatMap] at hr
        obtain ⟨cme, _, hr⟩ := hr
        obtain ⟨callerClassName, callerMethods⟩ := cme
        simp only at hr
        split at hr
        · simp at hr
        · split at hr
          · simp only [List.mem_filterMap] at hr
            obtain ⟨cm, _, hcm⟩ := hr
            obtain ⟨callerMethodName, count⟩ := cm
            simp only at hcm
            split at hcm
            · rename_i hcond
              obtain ⟨rfl⟩ := Option.some.inj hcm
              exact fun e => hcond.2 e.symm
            · simp at hcm
          · simp at hr
    · simp at hr
  · simp at hr

theorem functionReports_src_ne_tgt (d : MetricData) (m : NodeMap) (f2f : FnFiles) :
    ∀ r ∈ functionReports d m f2f, r.src ≠ r.tgt := by
  intro r hr
  simp only [functionReports, List.mem_flatMap] at hr
  obtain ⟨fe, _, hr⟩ := hr
  obtain ⟨srcFile, fnMap⟩ := fe
  simp only at hr
  obtain ⟨ge, _, hr⟩ := hr
  obtain ⟨srcFuncName, details⟩ := ge
  simp only at hr
  split at hr
  · rw [List.mem_append] at hr
    rcases hr with hr | hr
    · simp only [List.mem_filterMap] at hr
      obtain ⟨oe, _, hoe⟩ := hr
      obtain ⟨targetFuncName, count⟩ := oe
      simp only at hoe
      split at hoe
      · simp at hoe
      · split at hoe
        · rename_i hcond
          obtain ⟨rfl⟩ := Option.some.inj hoe
          exact hcond.2
        · simp at hoe
    · simp only [List.mem_filterMap] at hr
      obtain ⟨ie, _, hie⟩ := hr
      obtain ⟨callerFuncName, count⟩ := ie
      simp only at hie
      split at hie
      · simp at hie
      · split at hie
        · rename_i hcond
          obtain ⟨rfl⟩ := Option.some.inj hie
          exact fun e => hcond.2 e.symm
        · simp at hie
  · simp at hr

theorem classReportsFromMethods_src_ne_tgt (m : NodeMap) (lm : LinkMap) :
    ∀ r ∈ classReportsFromMethods m lm, r.src ≠ r.tgt := by
  intro r hr
  simp only [classReportsFromMethods, List.mem_filterMap] at hr
  obtain ⟨e, _, he⟩ := hr
  obtain ⟨⟨srcMethodId, targetMethodId⟩, linkData⟩ := e
  simp only at he
  (repeat' split at he) <;> try exact Option.noConfusion he
  rename_i hcond
  obtain ⟨rfl⟩ := Option.some.inj he
  exact hcond

theorem classReportsFromFunctions_src_ne_tgt (m : NodeMap) (lm : LinkMap) :
    ∀ r ∈ classReportsFromFunctions m lm, r.src ≠ r.tgt := by
  intro r hr
  simp only [classReportsFromFunctions, List.mem_filterMap] at hr
  obtain ⟨e, _, he⟩ := hr
  obtain ⟨⟨srcFuncId, targetFuncId⟩, linkData⟩ := e
  simp only at he
  (repeat' split at he) <;> try exact Option.noConfusion he
  rename_i hcond
  obtain ⟨rfl⟩ := Option.some.inj he
  exact hcond.2.2

theorem classReportsDirect_src_ne_tgt (d : MetricData) (m : NodeMap) (c2f : ClassFiles) :
    ∀ r ∈ classReportsDirect d m c2f, r.src ≠ r.tgt := by
  intro r hr
  simp only [classReportsDirect, List.mem_flatMap] at hr
  obtain ⟨fe, _, hr⟩ := hr
  obtain ⟨file, clsMap⟩ := fe
  simp only at hr
  obtain ⟨ce, _, hr⟩ := hr
  obtain ⟨srcClassName, methods⟩ := ce
  simp only at hr
  split at hr
  · simp only [List.mem_flatMap] at hr
    obtain ⟨meth, _, hr⟩ := hr
    rw [List.mem_append] at hr
    rcases hr with hr | hr
    · simp only [List.mem_filterMap] at hr
      obtain ⟨te, _, hte⟩ := hr
      obtain ⟨targetClassName, targetMethods⟩ := te
      simp only at hte
      split at hte
      · simp at hte
      · split at hte
        · rename_i hcond
          obtain ⟨rfl⟩ := Option.some.inj hte
          exact hcond.2
        · simp at hte
    · simp only [List.mem_filterMap] at hr
      obtain ⟨cme, _, hcme⟩ := hr
      obtain ⟨callerClassName, callerMethods⟩ := cme
      simp only at hcme
      split at hcme
      · simp at hcme
      · split at hcme
        · rename_i hcond
          obtain ⟨rfl⟩ := Option.some.inj hcme
          exact fun e => hcond.2 e.symm
        · simp at hcme
  · simp at hr

theorem fileReportsFromClasses_src_ne_tgt (m : NodeMap) (lm : LinkMap) :
    ∀ r ∈ fileReportsFromClasses m lm, r.src ≠ r.tgt := by
  intro r hr
  simp only [fileReportsFromClasses, List.mem_filterMap] at hr
  obtain ⟨e, _, he⟩ := hr
  obtain ⟨⟨srcClassId, targetClassId⟩, linkData⟩ := e
  simp only at he
  (repeat' split at he) <;> try exact Option.noConfusion he
  rename_i hcond
  obtain ⟨rfl⟩ := Option.some.inj he
  exact hcond

theorem fileReportsFromFunctions_src_ne_tgt (m : NodeMap) (lm : LinkMap) :
    ∀ r ∈ fileReportsFromFunctions m lm, r.src ≠ r.tgt := by
  intro r hr
  simp only [fileReportsFromFunctions, List.mem_filterMap] at hr
  obtain ⟨e, _, he⟩ := hr
  obtain ⟨⟨srcFuncId, targetFuncId⟩, linkData⟩ := e
  simp only at he
  (repeat' split at he) <;> try exact Option.noConfusion he
  rename_i hcond
  obtain ⟨rfl⟩ := Option.some.inj he
  exact hcond.2.2

theorem keys_ne_of_reports_ne (rs : List LinkReport)
    (h : ∀ r ∈ rs, r.src ≠ r.tgt) :
    ∀ k ∈ keysOf (rs.foldl accumStep ([] : LinkMap)), k.1 ≠ k.2 := by
  intro k hk
  rcases (mem_keys_foldl_accum rs [] k).mp hk with h' | ⟨r, hr, hrk⟩
  · simp [keysOf] at h'
  · have := h r hr
    obtain ⟨rfl⟩ := hrk
    exact this

theorem linksOf_reports_ne (rs : List LinkReport) (t : LinkType)
    (h : ∀ r ∈ rs, r.src ≠ r.tgt) :
    ∀ l ∈ linksOfMap (rs.foldl accumStep []) t, l.source ≠ l.target :=
  linksOfMap_src_ne_tgt _ t (keys_ne_of_reports_ne rs h)

end Mm

namespace Mm

/-- C4 counterexample: a raw import edge whose source equals its target is
emitted unchanged by buildGraph — the import loop of buildDirectories has
no self-loop check, so the no-self-loop property fails at the raw
file-dependency level. -/
theorem c4_counterexample :
    (buildGraph c4Input).links =
      [{ source := "a.ts", target := "a.ts", value := 1,
         type := LinkType.DEPENDENCY, direction := none }] ∧
      ((buildGraph c4Input).links.any (fun l => l.source = l.target)) = true := by
  decide

/-- C4 amended: every method-level CALL edge, function-level CALL edge,
class-level COUPLING edge and aggregated file-level DEPENDENCY edge of
buildGraph has distinct resolved endpoints; only the raw import edges are
emitted without a self-loop check. -/
theorem c4_theorem (d : MetricData) :
    (∀ l ∈ methodCallLinks d, l.source ≠ l.target) ∧
    (∀ l ∈ functionCallLinks d, l.source ≠ l.target) ∧
    (∀ l ∈ classCouplingLinks d, l.source ≠ l.target) ∧
    (∀ l ∈ fileDependencyLinks d, l.source ≠ l.target) := by
  refine ⟨?_, ?_, ?_, ?_⟩
  · exact linksOf_reports_ne _ _ (methodReports_src_ne_tgt d _ _)
  · exact linksOf_reports_ne _ _ (functionReports_src_ne_tgt d _ _)
  · refine linksOf_reports_ne _ _ ?_
    intro r hr
    rw [List.mem_append, List.mem_append] at hr
    rcases hr with (hr | hr) | hr
    · exact classReportsFromMethods_src_ne_tgt _ _ r hr
    · exact classReportsFromFunctions_src_ne_tgt _ _ r hr
    · exact classReportsDirect_src_ne_tgt d _ _ r hr
  · refine linksOf_reports_ne _ _ ?_
    intro r hr
    rw [List.mem_append] at hr
    rcases hr with hr | hr
    · exact fileReportsFromClasses_src_ne_tgt _ _ r hr
    · exact fileReportsFromFunctions_src_ne_tgt _ _ r hr

/-- C4 witness: the amended theorem applied to the scenario input, at its
method-level CALL edge. -/
theorem c4_witness :
    (("f1::Foo::bar" : String) == "f2::Baz::qux") = false := by
  have h := (c4_theorem c2Input).1
    { source := "f1::Foo::bar", target := "f2::Baz::qux", value := 3,
      type := LinkType.CALL, direction := some Direction.fanOut } (by decide)
  simp [h]

end Mm

namespace Mm

theorem linksOf_filter_pair (lm : LinkMap) (t : LinkType) (s tg : String) :
    (linksOfMap lm t).filter (fun l => l.source = s ∧ l.target = tg)
      = linksOfMap (lm.filter (fun e => e.1 = (s, tg))) t := by
  unfold linksOfMap
  rw [List.filter_map]
  congr 1
  apply List.filter_congr
  intro e _
  simp [Function.comp, Prod.ext_iff]

theorem linksOf_filter_value (rs : List LinkReport) (t : LinkType) (s tg : String)
    (h : (s, tg) ∈ rs.map reportKey) :
    ((linksOfMap (rs.foldl accumStep []) t).filter
        (fun l => l.source = s ∧ l.target = tg)).map GraphLink.value
      = [sumReports rs (s, tg)] := by
  have hn : (keysOf (rs.foldl accumStep ([] : LinkMap))).Nodup :=
    nodup_keys_foldl_accum rs [] (by simp [keysOf])
  have hk : hasK (rs.foldl accumStep ([] : LinkMap)) (s, tg) = true := by
    rw [hasK_foldl_accum]
    rcases List.mem_map.mp h with ⟨r, hr, hrk⟩
    have : rs.any (fun r => decide (reportKey r = (s, tg))) = true :=
      List.any_eq_true.mpr ⟨r, hr, by simp [hrk]⟩
    simp [this]
  obtain ⟨a, ha⟩ : ∃ a, getK (rs.foldl accumStep ([] : LinkMap)) (s, tg) = some a := by
    cases hgk : getK (rs.foldl accumStep ([] : LinkMap)) (s, tg) with
    | none => rw [hasK, hgk] at hk; simp at hk
    | some a => exact ⟨a, rfl⟩
  have hcount : a.count = sumReports rs (s, tg) := by
    have := countOf_foldl_accum rs [] (s, tg)
    rw [show countOf ([] : LinkMap) (s, tg) = 0 from rfl] at this
    unfold countOf at this
    rw [ha] at this
    simpa using this
  rw [linksOf_filter_pair, getK_filter_eq_of_nodup _ _ _ hn ha]
  simp [linksOfMap, hcount]

/-! C1: accumulation of fan-out and fan-in reports per directed pair. -/

/-- C1 counterexample: with the caller reporting fan-out Baz.qux count 3
and the callee reporting the same interaction as fan-in Foo.bar count 3,
the single method-level CALL edge emitted by buildGraph has value 6, not
3 — the two reports are summed, not deduplicated. -/
theorem c1_counterexample :
    ((buildGraph c1Input).links.filter
        (fun l => l.type = LinkType.CALL)).map GraphLink.value = [6] ∧
      ((buildGraph c1Input).links.filter
        (fun l => l.type = LinkType.CALL)).map GraphLink.value ≠ [3] := by
  decide

/-- C1 amended: for a directed method pair that at least one resolvable
report mentions, the method-level CALL list contains exactly one edge for
the pair, and its value is the sum of the counts of all fan-out and
fan-in reports resolving to that pair (so a pair reported once has value
N, and a pair reported by both the caller fan-out and the callee fan-in
has value 2N); likewise at function level. -/
theorem c1_theorem (d : MetricData) (s t : String) :
    ((s, t) ∈ (methodReportsOf d).map reportKey →
      ((methodCallLinks d).filter
          (fun l => l.source = s ∧ l.target = t)).map GraphLink.value
        = [sumReports (methodReportsOf d) (s, t)]) ∧
    ((s, t) ∈ (functionReportsOf d).map reportKey →
      ((functionCallLinks d).filter
          (fun l => l.source = s ∧ l.target = t)).map GraphLink.value
        = [sumReports (functionReportsOf d) (s, t)]) := by
  constructor
  · intro h
    exact linksOf_filter_value (methodReportsOf d) LinkType.CALL s t h
  · intro h
    exact linksOf_filter_value (functionReportsOf d) LinkType.CALL s t h

/-- C1 witness: the amended theorem applied to the double-report input,
where the summed value evaluates to 6. -/
theorem c1_witness :
    ((methodCallLinks c1Input).filter
        (fun l => l.source = "f1::Foo::bar" ∧ l.target = "f2::Baz::qux")).map
        GraphLink.value
      = [sumReports (methodReportsOf c1Input) ("f1::Foo::bar", "f2::Baz::qux")] :=
  (c1_theorem c1Input "f1::Foo::bar" "f2::Baz::qux").1 (by decide)

end Mm

namespace Mm

/-! C10: duplicate constructor method node in the public output. -/

theorem str_ne_of_length {a b : String} (h : a.length ≠ b.length) : a ≠ b :=
  fun e => h (by rw [e])

/-- C10: whenever a registered file declares a class with a method whose
raw name is constructor, the registry holds the method node under both
the normalized id and the raw constructor id, so the nodes list returned
by buildGraph contains a node with the normalized method id twice. -/
theorem c10_theorem (f C : String) (locs : List (String × Nat))
    (deps : List (String × List String))
    (cc : List (String × List (String × List MethodEntry)))
    (fc : List (String × List (String × FnCouplingEntry)))
    (hsplit : splitOnChar '/' f = [f]) :
    ((buildGraph (c10Input f C locs deps cc fc)).nodes.filter
      (fun n => n.id = f ++ "::" ++ C ++ "::" ++ "_constructor")).length = 2 := by
  have hlen2 : ("::" : String).length = 2 := rfl
  set cid := f ++ "::" ++ C with hcid
  set k1 := cid ++ "::" ++ "_constructor" with hk1
  set k2 := cid ++ "::constructor" with hk2
  have lcid : cid.length = f.length + 2 + C.length := by
    rw [hcid, String.length_append, String.length_append, hlen2]
  have lk1 : k1.length = cid.length + 14 := by
    rw [hk1, String.length_append, String.length_append, hlen2,
      show ("_constructor" : String).length = 12 from rfl]
  have lk2 : k2.length = cid.length + 13 := by
    rw [hk2, String.length_append, show ("::constructor" : String).length = 13 from rfl]
  have hfcid : ¬ (f = cid) :=
    str_ne_of_length (by omega)
  have hfk1 : ¬ (f = k1) := str_ne_of_length (by omega)
  have hfk2 : ¬ (f = k2) := str_ne_of_length (by omega)
  have hcidk1 : ¬ (cid = k1) := str_ne_of_length (by omega)
  have hcidk2 : ¬ (cid = k2) := str_ne_of_length (by omega)
  have hk1k2 : ¬ (k1 = k2) := str_ne_of_length (by omega)
  have hm0 : buildDirectories (c10Input f C locs deps cc fc) =
      [(f, GraphNode.mk f f NodeType.FILE none [] (locOf locs f) 0)] := by
    simp [c10Input, buildDirectories, filePathsOf, filePathStep, hsplit, setK]
  have hclass : buildClassToFileMap (c10Input f C locs deps cc fc)
      [(f, GraphNode.mk f f NodeType.FILE none [] (locOf locs f) 0)] =
      ([(f, GraphNode.mk f f NodeType.FILE none [cid] (locOf locs f) 0),
        (cid, GraphNode.mk cid C NodeType.CLASS (some f) [k1] 1 1),
        (k1, GraphNode.mk k1 "constructor" NodeType.FUNCTION (some cid) [] 1 2),
        (k2, GraphNode.mk k1 "constructor" NodeType.FUNCTION (some cid) [] 1 2)],
       [(C, [f])]) := by
    simp [c10Input, buildClassToFileMap, classStep, classMemberStep, ctorMember,
      hasK, getK, setK, hfcid, hfk1, hfk2, hcidk1, hcidk2, hk1k2]
  simp only [buildGraph, hm0, hclass]
  simp [c10Input, buildFunctionToFileMap, valsK, List.filter, hfk1, hcidk1]

/-- C10 witness: the theorem at a concrete file and class name. -/
theorem c10_witness :
    ((buildGraph (c10Input "f" "C" [] [] [] [])).nodes.filter
      (fun n => n.id = "f" ++ "::" ++ "C" ++ "::" ++ "_constructor")).length = 2 :=
  c10_theorem "f" "C" [] [] [] [] (by decide)

end Mm

namespace Mm

/-! Lemmas about the view-controller model. -/

theorem mem_setK {κ α : Type} [DecidableEq κ] (m : JsMap κ α) (k : κ) (v : α)
    (e : κ × α) (h : e ∈ setK m k v) : e ∈ m ∨ e = (k, v) := by
  induction m with
  | nil => simpa [setK] using h
  | cons hd t ih =>
      obtain ⟨k₁, v₁⟩ := hd
      by_cases hk : k₁ = k
      · rw [show setK ((k₁, v₁) :: t) k v = (k₁, v) :: t from by simp [setK, hk]] at h
        rcases List.mem_cons.mp h with h | h
        · exact Or.inr (by rw [h, hk])
        · exact Or.inl (List.mem_cons_of_mem _ h)
      · rw [show setK ((k₁, v₁) :: t) k v = (k₁, v₁) :: setK t k v from by
            simp [setK, hk]] at h
        rcases List.mem_cons.mp h with h | h
        · exact Or.inl (by rw [h]; exact List.mem_cons_self _ _)
        · rcases ih h with h | h
          · exact Or.inl (List.mem_cons_of_mem _ h)
          · exact Or.inr h

theorem getK_of_mem_nodup {κ α : Type} [DecidableEq κ] (m : JsMap κ α)
    (k : κ) (v : α) (hn : (keysOf m).Nodup) (h : (k, v) ∈ m) :
    getK m k = some v := by
  induction m with
  | nil => simp at h
  | cons hd t ih =>
      obtain ⟨k₁, v₁⟩ := hd
      rw [keysOf_cons] at hn
      obtain ⟨h1, h2⟩ := List.nodup_cons.mp hn
      rcases List.mem_cons.mp h with h | h
      · injection h with hk hv
        subst hk
        subst hv
        unfold getK
        rw [if_pos rfl]
      · by_cases hk : k₁ = k
        · subst hk
          exact absurd (List.mem_map_of_mem (·.1) h) h1
        · simp only [getK, if_neg hk]
          exact ih h2 h

theorem contains_iff_mem (vis : List String) (x : String) :
    vis.contains x = true ↔ x ∈ vis :=
  List.elem_iff

theorem findVisible_mem (m : NodeMap) (vis : List String) (fuel : Nat)
    (id x : String) (h : findVisible m vis fuel id = some x) : x ∈ vis := by
  induction fuel generalizing id with
  | zero => simp [findVisible] at h
  | succ fuel ih =>
      unfold findVisible at h
      split at h
      · obtain ⟨rfl⟩ := Option.some.inj h
        rename_i hc
        exact (contains_iff_mem vis x).mp hc
      · split at h
        · exact Option.noConfusion h
        · split at h
          · exact Option.noConfusion h
          · exact ih _ h

theorem findVisibleLoopMF_mem (m : NodeMap) (vis : List String) (fuel : Nat)
    (o : Option GraphNode) (x : String)
    (h : findVisibleLoopMF m vis fuel o = some x) : x ∈ vis := by
  induction fuel generalizing o with
  | zero =>
      cases o with
      | none => simp [findVisibleLoopMF] at h
      | some n => simp [findVisibleLoopMF] at h
  | succ fuel ih =>
      cases o with
      | none => simp [findVisibleLoopMF] at h
      | some n =>
          unfold findVisibleLoopMF at h
          split at h
          · exact Option.noConfusion h
          · split at h
            · obtain ⟨rfl⟩ := Option.some.inj h
              rename_i hc
              exact (contains_iff_mem vis x).mp hc
            · exact ih _ h

theorem findVisibleMF_mem (m : NodeMap) (vis : List String) (id x : String)
    (h : findVisibleMF m vis id = some x) : x ∈ vis := by
  unfold findVisibleMF at h
  split at h
  · obtain ⟨rfl⟩ := Option.some.inj h
    rename_i hc
    exact (contains_iff_mem vis _).mp hc
  · exact findVisibleLoopMF_mem m vis _ _ x h

theorem resolveHG_mem (m : NodeMap) (vis : List String) (l : GraphLink)
    (s t : String) (h : resolveHG m vis l = some (s, t)) : s ∈ vis ∧ t ∈ vis := by
  unfold resolveHG at h
  split at h
  · split at h
    · rename_i s' t' hs ht _
      injection h with he
      obtain ⟨h1, h2⟩ := Prod.ext_iff.mp he
      subst h1
      subst h2
      exact ⟨findVisible_mem m vis _ _ _ hs, findVisible_mem m vis _ _ _ ht⟩
    · exact Option.noConfusion h
  · exact Option.noConfusion h

theorem resolveMF_mem (m : NodeMap) (vis : List String) (l : GraphLink)
    (s t : String) (h : resolveMF m vis l = some (s, t)) : s ∈ vis ∧ t ∈ vis := by
  unfold resolveMF at h
  split at h
  · split at h
    · rename_i s' t' hs ht _
      injection h with he
      obtain ⟨h1, h2⟩ := Prod.ext_iff.mp he
      subst h1
      subst h2
      exact ⟨findVisibleMF_mem m vis _ _ hs, findVisibleMF_mem m vis _ _ ht⟩
    · exact Option.noConfusion h
  · exact Option.noConfusion h

end Mm

namespace Mm

/-! C5: expand followed by collapse restores the visible membership. -/

/-- C5: for a registered node p with children, visible in a visible set
none of whose members is a descendant of p, while every child of p is a
descendant of p, collapsing p right after expanding p yields a visible
list with exactly the membership of the original one. -/
theorem c5_theorem (m : NodeMap) (vis : List String) (p : String) (n : GraphNode)
    (hget : getK m p = some n) (hne : n.children ≠ [])
    (hvis : p ∈ vis)
    (hchild : ∀ c ∈ n.children, isDescendant m m.length c p = true)
    (hnodesc : ∀ x ∈ vis, isDescendant m m.length x p = false) :
    ∀ x, x ∈ collapse m (expand m vis p) p ↔ x ∈ vis := by
  intro x
  unfold expand collapse
  rw [hget]
  dsimp only
  rw [if_neg (by simpa using hne)]
  constructor
  · intro hx
    rcases List.mem_append.mp hx with hx | hx
    · obtain ⟨hmem, hdesc⟩ := List.mem_filter.mp hx
      rcases List.mem_append.mp hmem with h1 | h1
      · exact (List.mem_filter.mp h1).1
      · exfalso
        rw [hchild x h1] at hdesc
        simp at hdesc
    · rw [List.mem_singleton] at hx
      subst hx
      exact hvis
  · intro hx
    by_cases hxp : x = p
    · subst hxp
      exact List.mem_append.mpr (Or.inr (by simp))
    · refine List.mem_append.mpr (Or.inl (List.mem_filter.mpr ⟨?_, ?_⟩))
      · exact List.mem_append.mpr (Or.inl (List.mem_filter.mpr ⟨hx, by simpa using hxp⟩))
      · rw [hnodesc x hx]
        simp

/-- C5 witness: expanding and collapsing the root of the three-node
registry restores the visible set containing exactly the root. -/
theorem c5_witness :
    "p" ∈ collapse c5Map (expand c5Map ["p"] "p") "p" :=
  (c5_theorem c5Map ["p"] "p" (viewNode "p" none ["c1", "c2"]) (by decide)
    (by decide) (by decide) (by decide) (by decide) "p").mpr (by decide)

/-! C6: visible-edge endpoint validity. -/

theorem updateLinksHG_endpoints (m : NodeMap) (vis : List String)
    (ls : List GraphLink) :
    ∀ e ∈ updateLinksHG m vis ls, e.source ∈ vis ∧ e.target ∈ vis := by
  suffices h : ∀ acc : JsMap (String × String) VisLink,
      (∀ en ∈ acc, en.2.source ∈ vis ∧ en.2.target ∈ vis) →
      ∀ en ∈ ls.foldl (hgStep m vis) acc,
        en.2.source ∈ vis ∧ en.2.target ∈ vis by
    intro e he
    unfold updateLinksHG at he
    rcases List.mem_map.mp he with ⟨en, hen, rfl⟩
    exact h [] (by simp) en hen
  intro acc
  induction ls generalizing acc with
  | nil => intro hacc; simpa using hacc
  | cons l rest ih =>
      intro hacc
      rw [List.foldl_cons]
      apply ih
      intro en hen
      unfold hgStep at hen
      split at hen
      · rename_i s t hp
        split at hen
        · exact hacc en hen
        · rcases mem_setK _ _ _ _ hen with h | h
          · exact hacc en h
          · subst h
            exact resolveHG_mem m vis l s t hp
      · exact hacc en hen

theorem updateLinksMF_endpoints (m : NodeMap) (vis : List String)
    (ls : List GraphLink) :
    ∀ e ∈ updateLinksMF m vis ls, e.source ∈ vis ∧ e.target ∈ vis := by
  suffices h : ∀ acc : JsMap (String × String) VisLink,
      (∀ en ∈ acc, en.2.source ∈ vis ∧ en.2.target ∈ vis) →
      ∀ en ∈ ls.foldl (mfStep m vis) acc,
        en.2.source ∈ vis ∧ en.2.target ∈ vis by
    intro e he
    unfold updateLinksMF at he
    rcases List.mem_map.mp he with ⟨en, hen, rfl⟩
    exact h [] (by simp) en hen
  intro acc
  induction ls generalizing acc with
  | nil => intro hacc; simpa using hacc
  | cons l rest ih =>
      intro hacc
      rw [List.foldl_cons]
      apply ih
      intro en hen
      unfold mfStep at hen
      split at hen
      · rename_i s t hp
        split at hen
        · rcases mem_setK _ _ _ _ hen with h | h
          · exact hacc en h
          · subst h
            exact resolveMF_mem m vis l s t hp
        · rename_i v hv
          rcases mem_setK _ _ _ _ hen with h | h
          · exact hacc en h
          · subst h
            have hm := mem_of_getK_eq_some _ _ _ hv
            obtain ⟨h1, h2⟩ := hacc ((s, t), v) hm
            exact ⟨h1, h2⟩
      · exact hacc en hen

/-- C6: after any sequence of expand and collapse transitions from the
initial root-only visible set, every visible link recomputed by either
updateLinks variant has both endpoints in the current visible set. -/
theorem c6_theorem (nodes : List GraphNode) (allLinks : List GraphLink)
    (ops : List ViewOp) :
    (∀ e ∈ updateLinksHG (buildNodesIndex nodes)
        (runOps (buildNodesIndex nodes) (rootIds nodes) ops) allLinks,
      e.source ∈ runOps (buildNodesIndex nodes) (rootIds nodes) ops ∧
      e.target ∈ runOps (buildNodesIndex nodes) (rootIds nodes) ops) ∧
    (∀ e ∈ updateLinksMF (buildNodesIndex nodes)
        (runOps (buildNodesIndex nodes) (rootIds nodes) ops) allLinks,
      e.source ∈ runOps (buildNodesIndex nodes) (rootIds nodes) ops ∧
      e.target ∈ runOps (buildNodesIndex nodes) (rootIds nodes) ops) :=
  ⟨updateLinksHG_endpoints _ _ _, updateLinksMF_endpoints _ _ _⟩

/-- C6 witness: one expand of the root p makes c1 and c2 visible, and the
recomputed link between them has its endpoints in the visible set. -/
theorem c6_witness :
    "c1" ∈ runOps (buildNodesIndex c5Nodes) (rootIds c5Nodes) [ViewOp.expandOp "p"] ∧
    "c2" ∈ runOps (buildNodesIndex c5Nodes) (rootIds c5Nodes) [ViewOp.expandOp "p"] :=
  (c6_theorem c5Nodes
      [{ source := "c1", target := "c2", value := 4, type := LinkType.CALL,
         direction := none }] [ViewOp.expandOp "p"]).1
    { source := "c1", target := "c2", value := 1 } (by decide)

end Mm

namespace Mm

/-! C3: merged visible-link values. -/

theorem valueAt_mfStep (m : NodeMap) (vis : List String)
    (acc : JsMap (String × String) VisLink) (l : GraphLink) (k : String × String) :
    valueAt (mfStep m vis acc l) k
      = valueAt acc k + (if resolveMF m vis l = some k then 1 else 0) := by
  unfold mfStep valueAt
  cases hr : resolveMF m vis l with
  | none => simp
  | some p =>
      obtain ⟨s, t⟩ := p
      by_cases hk : (s, t) = k
      · subst hk
        cases hg : getK acc (s, t) with
        | none => simp [hg, getK_setK_self]
        | some v => simp [hg, getK_setK_self]
      · have hne : k ≠ (s, t) := fun e => hk e.symm
        have hro : ¬ (some (s, t) = some k) := fun e => hk (Option.some.inj e)
        cases hg : getK acc (s, t) with
        | none => simp [hg, getK_setK_ne _ _ _ _ hne, hro]
        | some v => simp [hg, getK_setK_ne _ _ _ _ hne, hro]

theorem valueAt_foldl_mf (m : NodeMap) (vis : List String) (ls : List GraphLink)
    (acc : JsMap (String × String) VisLink) (k : String × String) :
    valueAt (ls.foldl (mfStep m vis) acc) k
      = valueAt acc k + List.count k (resolvedPairsMF m vis ls) := by
  induction ls generalizing acc with
  | nil => simp [resolvedPairsMF]
  | cons l rest ih =>
      rw [List.foldl_cons, ih, valueAt_mfStep]
      unfold resolvedPairsMF
      rw [List.filterMap_cons]
      cases hr : resolveMF m vis l with
      | none => simp [resolvedPairsMF]
      | some p =>
          by_cases hk : p = k
          · subst hk
            rw [List.count_cons_self]
            simp [resolvedPairsMF]
            omega
          · rw [List.count_cons_of_ne (fun e => hk e.symm)]
            have : ¬ (some p = some k) := fun e => hk (Option.some.inj e)
            simp [resolvedPairsMF, this]

theorem mf_entries_shape (m : NodeMap) (vis : List String) (ls : List GraphLink)
    (acc : JsMap (String × String) VisLink)
    (hacc : ∀ en ∈ acc, en.2.source = en.1.1 ∧ en.2.target = en.1.2) :
    ∀ en ∈ ls.foldl (mfStep m vis) acc,
      en.2.source = en.1.1 ∧ en.2.target = en.1.2 := by
  induction ls generalizing acc with
  | nil => simpa using hacc
  | cons l rest ih =>
      rw [List.foldl_cons]
      apply ih
      intro en hen
      unfold mfStep at hen
      split at hen
      · rename_i s t hp
        split at hen
        · rcases mem_setK _ _ _ _ hen with h | h
          · exact hacc en h
          · subst h
            exact ⟨rfl, rfl⟩
        · rename_i v hv
          rcases mem_setK _ _ _ _ hen with h | h
          · exact hacc en h
          · subst h
            have hm := mem_of_getK_eq_some _ _ _ hv
            obtain ⟨h1, h2⟩ := hacc ((s, t), v) hm
            exact ⟨h1, h2⟩
      · exact hacc en hen

theorem mf_keys_nodup (m : NodeMap) (vis : List String) (ls : List GraphLink)
    (acc : JsMap (String × String) VisLink) (hacc : (keysOf acc).Nodup) :
    (keysOf (ls.foldl (mfStep m vis) acc)).Nodup := by
  induction ls generalizing acc with
  | nil => simpa using hacc
  | cons l rest ih =>
      rw [List.foldl_cons]
      apply ih
      unfold mfStep
      split
      · rename_i s t hp
        split
        · exact nodup_keysOf_setK _ _ _ hacc
        · exact nodup_keysOf_setK _ _ _ hacc
      · exact hacc

theorem hg_entries_inv (m : NodeMap) (vis : List String) (ls : List GraphLink)
    (acc : JsMap (String × String) VisLink)
    (hacc : ∀ en ∈ acc, en.2.value = 1 ∧ en.2.source = en.1.1 ∧ en.2.target = en.1.2) :
    ∀ en ∈ ls.foldl (hgStep m vis) acc,
      en.2.value = 1 ∧ en.2.source = en.1.1 ∧ en.2.target = en.1.2 := by
  induction ls generalizing acc with
  | nil => simpa using hacc
  | cons l rest ih =>
      rw [List.foldl_cons]
      apply ih
      intro en hen
      unfold hgStep at hen
      split at hen
      · rename_i s t hp
        split at hen
        · exact hacc en hen
        · rcases mem_setK _ _ _ _ hen with h | h
          · exact hacc en h
          · subst h
            exact ⟨rfl, rfl, rfl⟩
      · exact hacc en hen

theorem hg_keys_nodup (m : NodeMap) (vis : List String) (ls : List GraphLink)
    (acc : JsMap (String × String) VisLink) (hacc : (keysOf acc).Nodup) :
    (keysOf (ls.foldl (hgStep m vis) acc)).Nodup := by
  induction ls generalizing acc with
  | nil => simpa using hacc
  | cons l rest ih =>
      rw [List.foldl_cons]
      apply ih
      unfold hgStep
      split
      · rename_i s t hp
        split
        · exact hacc
        · exact nodup_keysOf_setK _ _ _ hacc
      · exact hacc

/-- C3 counterexample: two raw links of weight 5 between the visible
nodes a and b merge into one visible link, but its value is 2 (the
number of merged raw links) in the module-function variant and 1 in the
hierarchical variant — not the weight sum 10 stated by the claim. -/
theorem c3_counterexample :
    updateLinksMF c3Map ["a", "b"] c3RawLinks
        = [{ source := "a", target := "b", value := 2 }] ∧
      updateLinksHG c3Map ["a", "b"] c3RawLinks
        = [{ source := "a", target := "b", value := 1 }] ∧
      (2 : Nat) ≠ 5 + 5 ∧ (1 : Nat) ≠ 5 + 5 := by
  decide

/-- C3 amended: raw edges resolving to the same visible ordered pair are
merged into a single visible edge per pair; in the module-function-graph
component the merged value counts the merged raw edges (ignoring their
weights), and in the hierarchical-graph component it is the constant 1. -/
theorem c3_theorem (m : NodeMap) (vis : List String) (ls : List GraphLink) :
    (∀ e ∈ updateLinksMF m vis ls,
        e.value = List.count (e.source, e.target) (resolvedPairsMF m vis ls)) ∧
    ((updateLinksMF m vis ls).map (fun e => (e.source, e.target))).Nodup ∧
    (∀ e ∈ updateLinksHG m vis ls, e.value = 1) ∧
    ((updateLinksHG m vis ls).map (fun e => (e.source, e.target))).Nodup := by
  have hshape := mf_entries_shape m vis ls [] (by simp)
  have hnodup := mf_keys_nodup m vis ls [] (by simp [keysOf])
  have hginv := hg_entries_inv m vis ls [] (by simp)
  have hgnodup := hg_keys_nodup m vis ls [] (by simp [keysOf])
  refine ⟨?_, ?_, ?_, ?_⟩
  · intro e he
    unfold updateLinksMF at he
    rcases List.mem_map.mp he with ⟨en, hen, rfl⟩
    obtain ⟨h1, h2⟩ := hshape en hen
    have hget : getK (ls.foldl (mfStep m vis) []) en.1 = some en.2 := by
      apply getK_of_mem_nodup _ _ _ hnodup
      exact (by cases en; exact hen)
    have := valueAt_foldl_mf m vis ls [] en.1
    rw [show valueAt ([] : JsMap (String × String) VisLink) en.1 = 0 from rfl] at this
    unfold valueAt at this
    rw [hget] at this
    rw [h1, h2]
    cases en with
    | mk k v =>
        obtain ⟨k1, k2⟩ := k
        simpa using this
  · unfold updateLinksMF
    rw [List.map_map]
    have : ((ls.foldl (mfStep m vis) []).map ((fun e => (e.source, e.target)) ∘ (·.2)))
        = (ls.foldl (mfStep m vis) []).map (·.1) := by
      apply List.map_congr_left
      intro en hen
      obtain ⟨h1, h2⟩ := hshape en hen
      simp [Function.comp, h1, h2]
    rw [this]
    exact hnodup
  · intro e he
    unfold updateLinksHG at he
    rcases List.mem_map.mp he with ⟨en, hen, rfl⟩
    exact (hginv en hen).1
  · unfold updateLinksHG
    rw [List.map_map]
    have : ((ls.foldl (hgStep m vis) []).map ((fun e => (e.source, e.target)) ∘ (·.2)))
        = (ls.foldl (hgStep m vis) []).map (·.1) := by
      apply List.map_congr_left
      intro en hen
      obtain ⟨_, h1, h2⟩ := hginv en hen
      simp [Function.comp, h1, h2]
    rw [this]
    exact hgnodup

/-- C3 witness: the amended theorem applied at the two-link instance,
where the merged module-function value is the count 2. -/
theorem c3_witness :
    ({ source := "a", target := "b", value := 2 } : VisLink).value
      = List.count ("a", "b") (resolvedPairsMF c3Map ["a", "b"] c3RawLinks) :=
  (c3_theorem c3Map ["a", "b"] c3RawLinks).1
    { source := "a", target := "b", value := 2 } (by decide)

end Mm

namespace Mm

/-! C7: symbol resolution and non-overwriting registration. -/

theorem str_append_right_cancel {a b c : String} (h : a ++ c = b ++ c) : a = b := by
  have hd := congrArg String.data h
  simp only [String.data_append] at hd
  exact String.ext (List.append_cancel_right hd)

theorem str_ne_append_colon (x y : String) : x ≠ x ++ "::" ++ y := by
  apply str_ne_of_length
  rw [String.length_append, String.length_append]
  have h2 : ("::" : String).length = 2 := rfl
  omega

theorem findFirstRegisteredFile_eq_find? (m : NodeMap) (name : String) :
    ∀ files : List String,
      findFirstRegisteredFile m name files
        = files.find? (fun f => hasK m (f ++ "::" ++ name))
  | [] => rfl
  | f :: rest => by
      unfold findFirstRegisteredFile
      rw [List.find?_cons]
      by_cases h : hasK m (f ++ "::" ++ name) <;>
        simp [h, findFirstRegisteredFile_eq_find? m name rest]

/-- C7: the resolution function returns the first candidate file whose
full class id is registered, falling back to the first candidate; and
when the same class short name is declared in two distinct files, the
second registration does not overwrite the first class node — both full
ids stay registered with their own parent files, and resolution prefers
the first candidate whose id exists. -/
theorem c7_theorem :
    (∀ (m : NodeMap) (c2f : ClassFiles) (name f0 : String) (rest : List String),
      getK c2f name = some (f0 :: rest) →
      findClassFile m c2f name
        = some (((f0 :: rest).find? (fun f => hasK m (f ++ "::" ++ name))).getD f0)) ∧
    (∀ (m : NodeMap) (f1 f2 C : String) (n1 n2 : GraphNode) (d : MetricData),
      d.classes = [(f1, [(C, [])]), (f2, [(C, [])])] →
      getK m f1 = some n1 → getK m f2 = some n2 → f1 ≠ f2 →
      f2 ≠ f1 ++ "::" ++ C → f1 ≠ f2 ++ "::" ++ C →
      ((getK (buildClassToFileMap d m).1 (f1 ++ "::" ++ C)).map GraphNode.parentId
          = some (some f1)) ∧
      ((getK (buildClassToFileMap d m).1 (f2 ++ "::" ++ C)).map GraphNode.parentId
          = some (some f2)) ∧
      findClassFile (buildClassToFileMap d m).1 (buildClassToFileMap d m).2 C
        = some f1) := by
  constructor
  · intro m c2f name f0 rest hc2f
    unfold findClassFile
    rw [hc2f]
    dsimp only
    rw [findFirstRegisteredFile_eq_find?]
    cases hfind : (f0 :: rest).find? (fun f => hasK m (f ++ "::" ++ name)) with
    | none => simp
    | some f => simp
  · intro m f1 f2 C n1 n2 d hcls hget1 hget2 hne hne21 hne12
    have hf1cid1 : f1 ≠ f1 ++ "::" ++ C := str_ne_append_colon f1 C
    have hf2cid2 : f2 ≠ f2 ++ "::" ++ C := str_ne_append_colon f2 C
    have hcidne : f1 ++ "::" ++ C ≠ f2 ++ "::" ++ C := fun e =>
      hne (str_append_right_cancel (str_append_right_cancel e))
    have hne' : f2 ≠ f1 := Ne.symm hne
    have hcid1f2 : f1 ++ "::" ++ C ≠ f2 := Ne.symm hne21
    have hcid1f1 : f1 ++ "::" ++ C ≠ f1 := Ne.symm hf1cid1
    have hcid2f2 : f2 ++ "::" ++ C ≠ f2 := Ne.symm hf2cid2
    have hcidne' : f2 ++ "::" ++ C ≠ f1 ++ "::" ++ C := Ne.symm hcidne
    have hcid2f1 : f2 ++ "::" ++ C ≠ f1 := Ne.symm hne12
    have hbuild : buildClassToFileMap d m =
        (setK (setK (setK (setK m (f1 ++ "::" ++ C)
            (GraphNode.mk (f1 ++ "::" ++ C) C NodeType.CLASS (some f1) [] 1
              (n1.depth + 1)))
            f1 (GraphNode.mk n1.id n1.label n1.type n1.parentId
              (n1.children ++ [f1 ++ "::" ++ C]) n1.loc n1.depth))
            (f2 ++ "::" ++ C)
            (GraphNode.mk (f2 ++ "::" ++ C) C NodeType.CLASS (some f2) [] 1
              (n2.depth + 1)))
            f2 (GraphNode.mk n2.id n2.label n2.type n2.parentId
              (n2.children ++ [f2 ++ "::" ++ C]) n2.loc n2.depth),
         [(C, [f1, f2])]) := by
      simp only [buildClassToFileMap, hcls, List.foldl_cons, List.foldl_nil]
      simp [classStep, hasK, hget1, hget2, getK_setK_self, getK_setK_ne _ _ _ _ hf1cid1,
        getK_setK_ne _ _ _ _ hne', getK_setK_ne _ _ _ _ hne21,
        getK_setK_ne _ _ _ _ hf2cid2, hne, hne', setK, getK]
    rw [hbuild]
    have hq1 : getK (setK (setK (setK (setK m (f1 ++ "::" ++ C)
        (GraphNode.mk (f1 ++ "::" ++ C) C NodeType.CLASS (some f1) [] 1
          (n1.depth + 1)))
        f1 (GraphNode.mk n1.id n1.label n1.type n1.parentId
          (n1.children ++ [f1 ++ "::" ++ C]) n1.loc n1.depth))
        (f2 ++ "::" ++ C)
        (GraphNode.mk (f2 ++ "::" ++ C) C NodeType.CLASS (some f2) [] 1
          (n2.depth + 1)))
        f2 (GraphNode.mk n2.id n2.label n2.type n2.parentId
          (n2.children ++ [f2 ++ "::" ++ C]) n2.loc n2.depth))
        (f1 ++ "::" ++ C) =
        some (GraphNode.mk (f1 ++ "::" ++ C) C NodeType.CLASS (some f1) [] 1
          (n1.depth + 1)) := by
      rw [getK_setK_ne _ _ _ _ hcid1f2, getK_setK_ne _ _ _ _ hcidne,
        getK_setK_ne _ _ _ _ hcid1f1, getK_setK_self]
    have hq2 : getK (setK (setK (setK (setK m (f1 ++ "::" ++ C)
        (GraphNode.mk (f1 ++ "::" ++ C) C NodeType.CLASS (some f1) [] 1
          (n1.depth + 1)))
        f1 (GraphNode.mk n1.id n1.label n1.type n1.parentId
          (n1.children ++ [f1 ++ "::" ++ C]) n1.loc n1.depth))
        (f2 ++ "::" ++ C)
        (GraphNode.mk (f2 ++ "::" ++ C) C NodeType.CLASS (some f2) [] 1
          (n2.depth + 1)))
        f2 (GraphNode.mk n2.id n2.label n2.type n2.parentId
          (n2.children ++ [f2 ++ "::" ++ C]) n2.loc n2.depth))
        (f2 ++ "::" ++ C) =
        some (GraphNode.mk (f2 ++ "::" ++ C) C NodeType.CLASS (some f2) [] 1
          (n2.depth + 1)) := by
      rw [getK_setK_ne _ _ _ _ hcid2f2, getK_setK_self]
    refine ⟨by rw [hq1]; rfl, by rw [hq2]; rfl, ?_⟩
    unfold findClassFile
    rw [show getK [(C, [f1, f2])] C = some [f1, f2] from by simp [getK]]
    dsimp only
    unfold findFirstRegisteredFile
    rw [show hasK (setK (setK (setK (setK m (f1 ++ "::" ++ C)
        (GraphNode.mk (f1 ++ "::" ++ C) C NodeType.CLASS (some f1) [] 1
          (n1.depth + 1)))
        f1 (GraphNode.mk n1.id n1.label n1.type n1.parentId
          (n1.children ++ [f1 ++ "::" ++ C]) n1.loc n1.depth))
        (f2 ++ "::" ++ C)
        (GraphNode.mk (f2 ++ "::" ++ C) C NodeType.CLASS (some f2) [] 1
          (n2.depth + 1)))
        f2 (GraphNode.mk n2.id n2.label n2.type n2.parentId
          (n2.children ++ [f2 ++ "::" ++ C]) n2.loc n2.depth))
        (f1 ++ "::" ++ C) = true from by rw [hasK, hq1]; rfl]
    rfl

end Mm

namespace Mm

/-- C7 witness: the resolution characterization and the non-overwrite
conclusion applied to the two-file duplicate-class instance. -/
theorem c7_witness :
    findClassFile c7BaseMap [("C", ["fA", "fB"])] "C"
        = some (((["fA", "fB"]).find?
            (fun f => hasK c7BaseMap (f ++ "::" ++ "C"))).getD "fA") ∧
      findClassFile (buildClassToFileMap c7Input c7BaseMap).1
        (buildClassToFileMap c7Input c7BaseMap).2 "C" = some "fA" :=
  ⟨c7_theorem.1 c7BaseMap [("C", ["fA", "fB"])] "C" "fA" ["fB"] (by decide),
   (c7_theorem.2 c7BaseMap "fA" "fB" "C" (viewNode "fA" none [])
      (viewNode "fB" none []) c7Input (by decide) (by decide) (by decide)
      (by decide) (by decide) (by decide)).2.2⟩

end Mm

namespace Mm

/-! C9: metric requests and failure defaults. -/

/-- C9 counterexample: the coupling-refactor loadHierarchy requests only
five metrics; it never requests loc-sloc or dependencies, both of which
belong to the seven required metrics. -/
theorem c9_counterexample :
    requestedMetricsCoupling.length = 5 ∧
      requestedMetricsCoupling.contains "loc-sloc" = false ∧
      requestedMetricsCoupling.contains "dependencies" = false ∧
      requestedMetricsFull.contains "loc-sloc" = true ∧
      requestedMetricsFull.contains "dependencies" = true := by
  decide

/-- C9 amended: the full service variant requests exactly the seven
metrics; the aggregate is the graph built from the record of all settled
outcomes, and a failed request is interchangeable with a successful
empty-default response for every one of the seven metrics. -/
theorem c9_theorem :
    requestedMetricsFull
        = ["files", "loc-sloc", "dependencies", "classes-per-file",
           "class-coupling", "functions-per-file", "function-coupling"] ∧
      requestedMetricsFull.length = 7 ∧
      (∀ r : FetchOutcomes, loadHierarchy r = buildGraph (settleOutcomes r)) ∧
      (∀ (r : FetchOutcomes) (e : Unit),
        loadHierarchy { r with files := Except.error e }
            = loadHierarchy { r with files := Except.ok none } ∧
        loadHierarchy { r with locByFile := Except.error e }
            = loadHierarchy { r with locByFile := Except.ok [] } ∧
        loadHierarchy { r with dependencies := Except.error e }
            = loadHierarchy { r with dependencies := Except.ok [] } ∧
        loadHierarchy { r with classes := Except.error e }
            = loadHierarchy { r with classes := Except.ok [] } ∧
        loadHierarchy { r with classCoupling := Except.error e }
            = loadHierarchy { r with classCoupling := Except.ok [] } ∧
        loadHierarchy { r with funcs := Except.error e }
            = loadHierarchy { r with funcs := Except.ok [] } ∧
        loadHierarchy { r with funcCoupling := Except.error e }
            = loadHierarchy { r with funcCoupling := Except.ok [] }) :=
  ⟨rfl, rfl, fun _ => rfl,
   fun _ _ => ⟨rfl, rfl, rfl, rfl, rfl, rfl, rfl⟩⟩

end Mm

namespace Mm

/-! C8: joined path id lemmas. -/

theorem joinSegs_append_singleton (M : List String) (s : String) :
    joinSegs (M ++ [s]) = if M = [] then s else joinSegs M ++ "/" ++ s := by
  cases M with
  | nil => simp [joinSegs]
  | cons m0 rest =>
      simp only [joinSegs, List.cons_append, List.foldl_append, List.foldl_cons,
        List.foldl_nil]
      simp

theorem foldl_slash_length_le (rest : List String) (acc : String) :
    acc.length ≤ (rest.foldl (fun acc part => acc ++ "/" ++ part) acc).length := by
  induction rest generalizing acc with
  | nil => exact Nat.le_refl _
  | cons r t ih =>
      rw [List.foldl_cons]
      refine Nat.le_trans ?_ (ih (acc ++ "/" ++ r))
      rw [String.length_append, String.length_append]
      omega

theorem str_length_pos_of_ne_empty {s : String} (h : s ≠ "") : 1 ≤ s.length := by
  by_contra hc
  push_neg at hc
  interval_cases hs : s.length
  exact h (by
    have : s.data.length = 0 := hs
    exact String.ext (List.length_eq_zero.mp this))

theorem joinSegs_ne_empty (L : List String) (hL : L ≠ []) (hs : ∀ s ∈ L, s ≠ "") :
    joinSegs L ≠ "" := by
  cases L with
  | nil => exact absurd rfl hL
  | cons s rest =>
      have h1 : 1 ≤ s.length :=
        str_length_pos_of_ne_empty (hs s (List.mem_cons_self _ _))
      have h2 := foldl_slash_length_le rest s
      intro he
      have h3 : (joinSegs (s :: rest)).length = 0 := by rw [he]; rfl
      rw [joinSegs] at h3
      omega

theorem joinOk_take (PP : List (List String)) (L : List String) (n : Nat)
    (h : JoinOk (PP ++ [L])) : JoinOk (PP ++ [L.take n]) := by
  intro A hA B hB i j hi hiA hj hjB heq
  have conv : ∀ M, M ∈ PP ++ [L.take n] → ∀ k : Nat, 1 ≤ k → k ≤ M.length →
      ∃ M', M' ∈ PP ++ [L] ∧ M'.take k = M.take k ∧ k ≤ M'.length := by
    intro M hM k hk hkM
    rcases List.mem_append.mp hM with hM | hM
    · exact ⟨M, List.mem_append.mpr (Or.inl hM), rfl, hkM⟩
    · rw [List.mem_singleton] at hM
      subst hM
      refine ⟨L, List.mem_append.mpr (Or.inr (List.mem_singleton.mpr rfl)), ?_, ?_⟩
      · rw [List.take_take]
        congr 1
        have := List.length_take n L
        omega
      · have := List.length_take n L
        omega
  obtain ⟨A', hA', hAeq, hiA'⟩ := conv A hA i hi hiA
  obtain ⟨B', hB', hBeq, hjB'⟩ := conv B hB j hj hjB
  rw [← hAeq, ← hBeq] at heq ⊢
  exact h A' hA' B' hB' i j hi hiA' hj hjB' heq

theorem segsOk_take (PP : List (List String)) (L : List String) (n : Nat)
    (h : SegsOk (PP ++ [L])) : SegsOk (PP ++ [L.take n]) := by
  intro M hM s hs
  rcases List.mem_append.mp hM with hM | hM
  · exact h M (List.mem_append.mpr (Or.inl hM)) s hs
  · rw [List.mem_singleton] at hM
    subst hM
    exact h L (List.mem_append.mpr (Or.inr (List.mem_singleton.mpr rfl))) s
      (List.mem_of_mem_take hs)

theorem hasRep_mono (PP : List (List String)) (D : List String) (part : String)
    (k : String) (h : hasRep (PP ++ [D]) k) : hasRep (PP ++ [D ++ [part]]) k := by
  obtain ⟨L, hL, i, hi1, hi2, hk⟩ := h
  rcases List.mem_append.mp hL with hL | hL
  · exact ⟨L, List.mem_append.mpr (Or.inl hL), i, hi1, hi2, hk⟩
  · rw [List.mem_singleton] at hL
    subst hL
    refine ⟨L ++ [part], List.mem_append.mpr (Or.inr (List.mem_singleton.mpr rfl)),
      i, hi1, ?_, ?_⟩
    · rw [List.length_append]
      omega
    · rw [List.take_append_of_le_length hi2]
      exact hk

end Mm

namespace Mm

theorem canonAt_mono (PP : List (List String)) (D : List String) (part : String)
    (e : String × GraphNode) (h : canonAt (PP ++ [D]) e) :
    canonAt (PP ++ [D ++ [part]]) e := by
  obtain ⟨L, hL, i, hi1, hi2, hk, hd, hp1, hp2⟩ := h
  rcases List.mem_append.mp hL with hL | hL
  · exact ⟨L, List.mem_append.mpr (Or.inl hL), i, hi1, hi2, hk, hd, hp1, hp2⟩
  · rw [List.mem_singleton] at hL
    subst hL
    refine ⟨L ++ [part], List.mem_append.mpr (Or.inr (List.mem_singleton.mpr rfl)),
      i, hi1, by rw [List.length_append]; omega, ?_, hd, hp1, ?_⟩
    · rw [List.take_append_of_le_length hi2]
      exact hk
    · intro h2
      rw [List.take_append_of_le_length (by omega : i - 1 ≤ L.length)]
      exact hp2 h2

end Mm

namespace Mm

theorem nodup_append_singleton {α : Type} (l : List α) (x : α)
    (hl : l.Nodup) (hx : x ∉ l) : (l ++ [x]).Nodup := by
  rw [List.nodup_append]
  exact ⟨hl, List.nodup_singleton x, by
    intro a ha hax
    rw [List.mem_singleton] at hax
    exact hx (hax ▸ ha)⟩

theorem dirInv_no_self_parent (PP : List (List String)) (m : NodeMap)
    (hJ : JoinOk PP) (hcanon : ∀ e ∈ m, canonAt PP e) :
    ∀ e ∈ m, e.2.parentId ≠ some e.1 := by
  intro e he hself
  obtain ⟨L, hL, i, hi1, hi2, hk, _, hp1, hp2⟩ := hcanon e he
  by_cases h1 : i = 1
  · rw [hp1 h1] at hself
    exact Option.noConfusion hself
  · have h2 : 2 ≤ i := by omega
    rw [hp2 h2, hk] at hself
    have heq := Option.some.inj hself
    have := hJ L hL L hL (i - 1) i (by omega) (by omega) hi1 hi2 heq
    have hlen := congrArg List.length this
    rw [List.length_take, List.length_take] at hlen
    omega

/-- splitOnCharList never yields the empty list of pieces. -/
theorem splitOnCharList_ne_nil (c : Char) (l : List Char) :
    splitOnCharList c l ≠ [] := by
  induction l with
  | nil => simp [splitOnCharList]
  | cons ch rest ih =>
      simp only [splitOnCharList]
      by_cases hc : ch = c
      · simp [hc]
      · simp only [if_neg hc]
        cases hr : splitOnCharList c rest with
        | nil => simp
        | cons s tail => simp

/-- pathSegs never yields the empty segment list. -/
theorem pathSegs_ne_nil (p : String) : pathSegs p ≠ [] :=
  splitOnCharList_ne_nil '/' p.data

/-- hasRep is monotone under appending one more segment list. -/
theorem hasRep_append (PP : List (List String)) (L : List String) (k : String)
    (h : hasRep PP k) : hasRep (PP ++ [L]) k := by
  obtain ⟨M, hM, i, hi1, hi2, hk⟩ := h
  exact ⟨M, List.mem_append.mpr (Or.inl hM), i, hi1, hi2, hk⟩

/-- canonAt is monotone under appending one more segment list. -/
theorem canonAt_append (PP : List (List String)) (L : List String)
    (e : String × GraphNode) (h : canonAt PP e) : canonAt (PP ++ [L]) e := by
  obtain ⟨M, hM, i, hi1, hi2, hk, hd, hp1, hp2⟩ := h
  exact ⟨M, List.mem_append.mpr (Or.inl hM), i, hi1, hi2, hk, hd, hp1, hp2⟩

/-- JoinOk restricts along a sub-collection of segment lists. -/
theorem joinOk_subset (S T : List (List String)) (hsub : ∀ L ∈ T, L ∈ S)
    (h : JoinOk S) : JoinOk T := by
  intro L hL M hM i j hi1 hiL hj1 hjM heq
  exact h L (hsub L hL) M (hsub M hM) i j hi1 hiL hj1 hjM heq

/-- SegsOk restricts along a sub-collection of segment lists. -/
theorem segsOk_subset (S T : List (List String)) (hsub : ∀ L ∈ T, L ∈ S)
    (h : SegsOk S) : SegsOk T := by
  intro L hL s hs
  exact h L (hsub L hL) s hs

/-- Appending the empty segment list does not change the registry
invariant (the empty list contributes no nonempty prefix). -/
theorem dirInv_push_nil (PP : List (List String)) (m : NodeMap)
    (h : DirInv PP m) : DirInv (PP ++ [[]]) m := by
  obtain ⟨h1, h2, h3, h4, h5, h6, h7⟩ := h
  refine ⟨h1, ?_, h3, h4, h5, h6, ?_⟩
  · intro k
    rw [h2 k]
    constructor
    · intro hr
      exact hasRep_append PP [] k hr
    · intro hr
      obtain ⟨L, hL, i, hi1, hi2, hk⟩ := hr
      rcases List.mem_append.mp hL with hL2 | hL2
      · exact ⟨L, hL2, i, hi1, hi2, hk⟩
      · rw [List.mem_singleton] at hL2
        rw [hL2] at hi2
        simp at hi2
        omega
  · intro e he
    exact canonAt_append PP [] e (h7 e he)

/-- Removing a trailing empty segment list does not change the registry
invariant. -/
theorem dirInv_pop_nil (PP : List (List String)) (m : NodeMap)
    (h : DirInv (PP ++ [[]]) m) : DirInv PP m := by
  obtain ⟨h1, h2, h3, h4, h5, h6, h7⟩ := h
  refine ⟨h1, ?_, h3, h4, h5, h6, ?_⟩
  · intro k
    rw [h2 k]
    constructor
    · intro hr
      obtain ⟨L, hL, i, hi1, hi2, hk⟩ := hr
      rcases List.mem_append.mp hL with hL2 | hL2
      · exact ⟨L, hL2, i, hi1, hi2, hk⟩
      · rw [List.mem_singleton] at hL2
        rw [hL2] at hi2
        simp at hi2
        omega
    · intro hr
      exact hasRep_append PP [] k hr
  · intro e he
    obtain ⟨L, hL, i, hi1, hi2, hk, hd, hp1, hp2⟩ := h7 e he
    rcases List.mem_append.mp hL with hL2 | hL2
    · exact ⟨L, hL2, i, hi1, hi2, hk, hd, hp1, hp2⟩
    · rw [List.mem_singleton] at hL2
      rw [hL2] at hi2
      simp at hi2
      omega

/-- Under join-injectivity the joined id of a segment list differs from
the joined id of its one-segment extension. -/
theorem joinSegs_ne_extend (PP : List (List String)) (D : List String)
    (part : String)
    (hJ : JoinOk (PP ++ [D ++ [part]]))
    (hS : SegsOk (PP ++ [D ++ [part]])) :
    joinSegs D ≠ joinSegs (D ++ [part]) := by
  have hDpMem : D ++ [part] ∈ PP ++ [D ++ [part]] :=
    List.mem_append.mpr (Or.inr (List.mem_singleton.mpr rfl))
  have hDpSegs : ∀ s ∈ D ++ [part], s ≠ "" := hS _ hDpMem
  have hDpD : (D ++ [part]).take D.length = D := by
    rw [List.take_append_of_le_length (Nat.le_refl _), List.take_length]
  have hDpLen : (D ++ [part]).length = D.length + 1 := by simp
  have hDpFull : (D ++ [part]).take (D.length + 1) = D ++ [part] := by
    rw [← hDpLen, List.take_length]
  intro he
  by_cases hD0 : D = []
  · subst hD0
    have hpe : part = "" := by simpa [joinSegs] using he.symm
    exact hDpSegs part (by simp) hpe
  · have h1 : 1 ≤ D.length := by
      cases D with
      | nil => exact absurd rfl hD0
      | cons a t => simp
    have h2 := hJ _ hDpMem _ hDpMem D.length (D.length + 1) h1
      (by omega) (by omega) (by omega)
      (by rw [hDpD, hDpFull]; exact he)
    rw [hDpD, hDpFull] at h2
    have h3 := congrArg List.length h2
    simp at h3

/-- The depth of the node registered at a joined directory prefix id is
the prefix length minus one. -/
theorem parent_depth_eq (PP : List (List String)) (D : List String)
    (part : String) (m : NodeMap) (pn : GraphNode)
    (hJ : JoinOk (PP ++ [D ++ [part]]))
    (hCanon : ∀ e ∈ m, canonAt (PP ++ [D]) e)
    (hD0 : D ≠ [])
    (hprEntry : (joinSegs D, pn) ∈ m) : pn.depth = D.length - 1 := by
  have hDLen : 1 ≤ D.length := by
    cases D with
    | nil => exact absurd rfl hD0
    | cons a t => simp
  have hDpMem : D ++ [part] ∈ PP ++ [D ++ [part]] :=
    List.mem_append.mpr (Or.inr (List.mem_singleton.mpr rfl))
  have hDpD : (D ++ [part]).take D.length = D := by
    rw [List.take_append_of_le_length (Nat.le_refl _), List.take_length]
  obtain ⟨L, hL, i, hi1, hi2, hkL, hdL, _, _⟩ := hCanon (joinSegs D, pn) hprEntry
  have hmemJ : ∀ M, M ∈ PP ++ [D] → ∀ k : Nat, 1 ≤ k → k ≤ M.length →
      ∃ M2, M2 ∈ PP ++ [D ++ [part]] ∧ M2.take k = M.take k ∧
        k ≤ M2.length := by
    intro M hM k hk hkM
    rcases List.mem_append.mp hM with hM | hM
    · exact ⟨M, List.mem_append.mpr (Or.inl hM), rfl, hkM⟩
    · rw [List.mem_singleton] at hM
      refine ⟨D ++ [part], hDpMem, ?_, ?_⟩
      · rw [hM]
        exact List.take_append_of_le_length (hM ▸ hkM)
      · have hkD : k ≤ D.length := hM ▸ hkM
        rw [List.length_append]
        simp
        omega
  obtain ⟨L2, hL2, hLeq, hkL2⟩ := hmemJ L hL i hi1 hi2
  have hjoin : joinSegs (L2.take i) = joinSegs ((D ++ [part]).take D.length) := by
    rw [hLeq, hDpD, ← hkL]
  have heq := hJ L2 hL2 _ hDpMem i D.length hi1 hkL2 hDLen (by simp) hjoin
  rw [hLeq, hDpD] at heq
  have hlen := congrArg List.length heq
  rw [List.length_take, Nat.min_eq_left hi2] at hlen
  have hdL2 : pn.depth = i - 1 := hdL
  omega

/-- Membership in prefs is exactly being a nonempty prefix. -/
theorem mem_prefs_iff (L A : List String) :
    A ∈ prefs L ↔ ∃ i : Nat, 1 ≤ i ∧ i ≤ L.length ∧ A = L.take i := by
  unfold prefs
  rw [List.mem_map]
  constructor
  · intro h
    obtain ⟨i, hi, hA⟩ := h
    rw [List.mem_range] at hi
    exact ⟨i + 1, by omega, by omega, hA.symm⟩
  · intro h
    obtain ⟨i, hi1, hi2, hA⟩ := h
    refine ⟨i - 1, List.mem_range.mpr (by omega), ?_⟩
    have hsub : i - 1 + 1 = i := by omega
    rw [hsub]
    exact hA.symm

/-- hasRepB decides hasRep. -/
theorem hasRepB_iff (PP : List (List String)) (k : String) :
    hasRepB PP k = true ↔ hasRep PP k := by
  unfold hasRepB hasRep
  rw [List.any_eq_true]
  constructor
  · intro h
    obtain ⟨L, hL, hA⟩ := h
    rw [List.any_eq_true] at hA
    obtain ⟨A, hAmem, hAeq⟩ := hA
    obtain ⟨i, hi1, hi2, hAi⟩ := (mem_prefs_iff L A).mp hAmem
    refine ⟨L, hL, i, hi1, hi2, ?_⟩
    rw [← hAi]
    exact (eq_of_beq hAeq).symm
  · intro h
    obtain ⟨L, hL, i, hi1, hi2, hk⟩ := h
    refine ⟨L, hL, ?_⟩
    rw [List.any_eq_true]
    refine ⟨L.take i, (mem_prefs_iff L _).mpr ⟨i, hi1, hi2, rfl⟩, ?_⟩
    exact beq_iff_eq.mpr hk.symm

/-- joinOkB implies JoinOk. -/
theorem joinOkB_sound (PP : List (List String)) (h : joinOkB PP = true) :
    JoinOk PP := by
  intro L hL M hM i j hi1 hiL hj1 hjM heq
  have hXmem : L.take i ∈ PP.flatMap prefs :=
    List.mem_flatMap.mpr ⟨L, hL, (mem_prefs_iff L _).mpr ⟨i, hi1, hiL, rfl⟩⟩
  have hYmem : M.take j ∈ PP.flatMap prefs :=
    List.mem_flatMap.mpr ⟨M, hM, (mem_prefs_iff M _).mpr ⟨j, hj1, hjM, rfl⟩⟩
  unfold joinOkB at h
  have h1 := (List.all_eq_true.mp h) _ hXmem
  have h2 := (List.all_eq_true.mp h1) _ hYmem
  rcases Bool.or_eq_true_iff.mp h2 with h3 | h3
  · rw [Bool.not_eq_true'] at h3
    rw [beq_eq_false_iff_ne] at h3
    exact absurd heq h3
  · exact eq_of_beq h3

/-- The empty registry satisfies the invariant of the empty walk. -/
theorem dirInv_nil : DirInv [] ([] : NodeMap) := by
  refine ⟨List.nodup_nil, ?_, ?_, ?_, ?_, ?_, ?_⟩
  · intro k
    constructor
    · intro h
      simp [hasK, getK] at h
    · intro h
      obtain ⟨L, hL, _⟩ := h
      simp at hL
  · intro e he
    simp at he
  · intro e he
    simp at he
  · intro e he
    simp at he
  · intro e he
    simp at he
  · intro e he
    simp at he

/-- The walk invariant implies the packaged consistency properties. -/
theorem dirInv_consistent (PP : List (List String)) (m : NodeMap)
    (h : DirInv PP m) : consistentMap m := by
  obtain ⟨h1, h2, h3, h4, h5, h6, h7⟩ := h
  exact ⟨h1, h3, h4, h5, h6⟩

/-- setK_child_dirInv: inserting a fresh directory node under an existing
parent (the code path of dirStep that creates the node and pushes its id
onto the parent children array) preserves the registry invariant. The new
node nd and the updated parent pn2 are abstracted by their field
equations. -/
theorem setK_child_dirInv (PP : List (List String)) (D : List String)
    (part : String) (m : NodeMap) (pn nd pn2 : GraphNode) (s : String)
    (hskey : s = joinSegs (D ++ [part]))
    (hJ : JoinOk (PP ++ [D ++ [part]]))
    (hInv : DirInv (PP ++ [D]) m)
    (hD0 : D ≠ [])
    (hpn : getK m (joinSegs D) = some pn)
    (hFresh : getK m s = none)
    (hprneid : joinSegs D ≠ joinSegs (D ++ [part]))
    (hpdepth : pn.depth = D.length - 1)
    (hnd1 : nd.id = s)
    (hnd2 : nd.parentId = some (joinSegs D))
    (hnd3 : nd.children = ([] : List String))
    (hnd4 : nd.depth = D.length)
    (hq1 : pn2.id = pn.id)
    (hq2 : pn2.parentId = pn.parentId)
    (hq3 : pn2.children = pn.children ++ [joinSegs (D ++ [part])])
    (hq4 : pn2.depth = pn.depth) :
    DirInv (PP ++ [D ++ [part]])
      (setK (setK m s nd) (joinSegs D) pn2) := by
  subst hskey
  obtain ⟨hU, hK, hN, hC, hP1, hP2, hCanon⟩ := hInv
  have hDLen : 1 ≤ D.length := by
    cases D with
    | nil => exact absurd rfl hD0
    | cons a t => simp
  have hDpMem : D ++ [part] ∈ PP ++ [D ++ [part]] :=
    List.mem_append.mpr (Or.inr (List.mem_singleton.mpr rfl))
  have hDMem : D ∈ PP ++ [D] :=
    List.mem_append.mpr (Or.inr (List.mem_singleton.mpr rfl))
  have hDpD : (D ++ [part]).take D.length = D := by
    rw [List.take_append_of_le_length (Nat.le_refl _), List.take_length]
  have hDpLen : (D ++ [part]).length = D.length + 1 := by simp
  have hDpFull : (D ++ [part]).take (D.length + 1) = D ++ [part] := by
    rw [← hDpLen, List.take_length]
  have hJD : JoinOk (PP ++ [D]) := by
    have := joinOk_take PP (D ++ [part]) D.length hJ
    rwa [hDpD] at this
  have hSelf : ∀ e ∈ m, e.2.parentId ≠ some e.1 :=
    dirInv_no_self_parent (PP ++ [D]) m hJD hCanon
  have hRepD : hasRep (PP ++ [D]) (joinSegs D) :=
    ⟨D, hDMem, D.length, hDLen, Nat.le_refl _, by rw [List.take_length]⟩
  have hprEntry : (joinSegs D, pn) ∈ m := mem_of_getK_eq_some _ _ _ hpn
  have hFreshKey : ∀ k v, getK m k = some v → k ≠ joinSegs (D ++ [part]) := by
    intro k v hg hk
    rw [hk, hFresh] at hg
    exact Option.noConfusion hg
  have hidne : joinSegs (D ++ [part]) ≠ joinSegs D := Ne.symm hprneid
  have hget2 : ∀ k, k ≠ joinSegs D → k ≠ joinSegs (D ++ [part]) →
      getK (setK (setK m (joinSegs (D ++ [part])) nd) (joinSegs D) pn2) k
        = getK m k := by
    intro k h1 h2
    rw [getK_setK_ne _ _ _ _ h1, getK_setK_ne _ _ _ _ h2]
  have hgetJ : getK (setK (setK m (joinSegs (D ++ [part])) nd) (joinSegs D) pn2)
      (joinSegs D) = some pn2 := getK_setK_self _ _ _
  have hgetJp : getK (setK (setK m (joinSegs (D ++ [part])) nd) (joinSegs D) pn2)
      (joinSegs (D ++ [part])) = some nd := by
    rw [getK_setK_ne _ _ _ _ hidne, getK_setK_self]
  have hnotin : joinSegs (D ++ [part]) ∉ pn.children := by
    intro hmem
    obtain ⟨cn, hcn, _⟩ := hP1 (joinSegs D, pn) hprEntry _ hmem
    exact hFreshKey _ cn hcn rfl
  have hmem3 : ∀ e, e ∈ setK (setK m (joinSegs (D ++ [part])) nd)
      (joinSegs D) pn2 →
      e ∈ m ∨ e = (joinSegs (D ++ [part]), nd) ∨ e = (joinSegs D, pn2) := by
    intro e he
    rcases mem_setK _ _ _ _ he with h | h
    · rcases mem_setK _ _ _ _ h with h2 | h2
      · exact Or.inl h2
      · exact Or.inr (Or.inl h2)
    · exact Or.inr (Or.inr h)
  refine ⟨?_, ?_, ?_, ?_, ?_, ?_, ?_⟩
  · exact nodup_keysOf_setK _ _ _ (nodup_keysOf_setK _ _ _ hU)
  · intro k
    rw [hasK_setK, hasK_setK]
    constructor
    · intro h
      rcases Bool.or_eq_true_iff.mp h with h | h
      · rcases Bool.or_eq_true_iff.mp h with h | h
        · exact hasRep_mono PP D part k ((hK k).mp h)
        · have hk : k = joinSegs (D ++ [part]) := of_decide_eq_true h
          rw [hk]
          exact ⟨D ++ [part], hDpMem, D.length + 1, by omega, by rw [hDpLen],
            by rw [hDpFull]⟩
      · have hk : k = joinSegs D := of_decide_eq_true h
        rw [hk]
        exact hasRep_mono PP D part _ hRepD
    · intro hrep
      obtain ⟨L, hL, i, hi1, hi2, hk⟩ := hrep
      rcases List.mem_append.mp hL with hLp | hLp
      · exact Bool.or_eq_true_iff.mpr (Or.inl (Bool.or_eq_true_iff.mpr (Or.inl
          ((hK k).mpr ⟨L, List.mem_append.mpr (Or.inl hLp), i, hi1, hi2, hk⟩))))
      · rw [List.mem_singleton] at hLp
        by_cases hiD : i ≤ D.length
        · refine Bool.or_eq_true_iff.mpr (Or.inl (Bool.or_eq_true_iff.mpr (Or.inl
            ((hK k).mpr ⟨D, hDMem, i, hi1, hiD, ?_⟩))))
          rw [hk, hLp, List.take_append_of_le_length hiD]
        · have hieq : i = D.length + 1 := by
            rw [hLp, hDpLen] at hi2
            omega
          refine Bool.or_eq_true_iff.mpr (Or.inl (Bool.or_eq_true_iff.mpr
            (Or.inr (decide_eq_true ?_))))
          rw [hk, hLp, hieq, hDpFull]
  · intro e he
    rcases hmem3 e he with h | h | h
    · exact hN e h
    · rw [h]
      exact hnd1
    · rw [h]
      show pn2.id = joinSegs D
      rw [hq1]
      exact hN (joinSegs D, pn) hprEntry
  · intro e he
    rcases hmem3 e he with h | h | h
    · exact hC e h
    · rw [h]
      show nd.children.Nodup
      rw [hnd3]
      exact List.nodup_nil
    · rw [h]
      show pn2.children.Nodup
      rw [hq3]
      exact nodup_append_singleton _ _ (hC (joinSegs D, pn) hprEntry) hnotin
  · intro e he c hc
    rcases hmem3 e he with h | h | h
    · obtain ⟨cn, hcn, hcp⟩ := hP1 e h c hc
      by_cases hcJ : c = joinSegs D
      · have hcnpn : cn = pn := by
          rw [hcJ, hpn] at hcn
          exact (Option.some.inj hcn).symm
        refine ⟨pn2, by rw [hcJ]; exact hgetJ, ?_⟩
        rw [hq2, ← hcnpn]
        exact hcp
      · refine ⟨cn, ?_, hcp⟩
        rw [hget2 c hcJ (hFreshKey c cn hcn)]
        exact hcn
    · rw [h] at hc
      have hc2 : c ∈ nd.children := hc
      rw [hnd3] at hc2
      simp at hc2
    · rw [h] at hc ⊢
      have hc2 : c ∈ pn2.children := hc
      rw [hq3] at hc2
      rcases List.mem_append.mp hc2 with hcold | hcnew
      · obtain ⟨cn, hcn, hcp⟩ := hP1 (joinSegs D, pn) hprEntry c hcold
        have hcJ : c ≠ joinSegs D := by
          intro hce
          rw [hce, hpn] at hcn
          have hcnpn : cn = pn := (Option.some.inj hcn).symm
          rw [hcnpn] at hcp
          exact hSelf (joinSegs D, pn) hprEntry hcp
        refine ⟨cn, ?_, ?_⟩
        · rw [hget2 c hcJ (hFreshKey c cn hcn)]
          exact hcn
        · exact hcp
      · rw [List.mem_singleton] at hcnew
        refine ⟨nd, ?_, ?_⟩
        · rw [hcnew]
          exact hgetJp
        · show nd.parentId = some (joinSegs D)
          exact hnd2
  · intro e he pr hpr
    rcases hmem3 e he with h | h | h
    · obtain ⟨q, hq, hqmem, hqdep⟩ := hP2 e h pr hpr
      by_cases hprJ : pr = joinSegs D
      · have hqpn : q = pn := by
          rw [hprJ, hpn] at hq
          exact (Option.some.inj hq).symm
        refine ⟨pn2, by rw [hprJ]; exact hgetJ, ?_, ?_⟩
        · rw [hq3]
          refine List.mem_append.mpr (Or.inl ?_)
          rw [← hqpn]
          exact hqmem
        · rw [hq4, ← hqpn]
          exact hqdep
      · refine ⟨q, ?_, hqmem, hqdep⟩
        rw [hget2 pr hprJ (hFreshKey pr q hq)]
        exact hq
    · rw [h] at hpr ⊢
      have hpr2 : nd.parentId = some pr := hpr
      rw [hnd2] at hpr2
      have hprJ : pr = joinSegs D := (Option.some.inj hpr2).symm
      refine ⟨pn2, by rw [hprJ]; exact hgetJ, ?_, ?_⟩
      · show joinSegs (D ++ [part]) ∈ pn2.children
        rw [hq3]
        exact List.mem_append.mpr (Or.inr (List.mem_singleton.mpr rfl))
      · show pn2.depth + 1 = nd.depth
        rw [hq4, hnd4, hpdepth]
        omega
    · rw [h] at hpr ⊢
      have hpr2 : pn.parentId = some pr := by
        rw [← hq2]
        exact hpr
      obtain ⟨q, hq, hqmem, hqdep⟩ := hP2 (joinSegs D, pn) hprEntry pr hpr2
      have hprJ : pr ≠ joinSegs D := by
        intro hce
        rw [hce] at hpr2
        exact hSelf (joinSegs D, pn) hprEntry hpr2
      refine ⟨q, ?_, ?_, ?_⟩
      · rw [hget2 pr hprJ (hFreshKey pr q hq)]
        exact hq
      · exact hqmem
      · show q.depth + 1 = pn2.depth
        rw [hq4]
        exact hqdep
  · intro e he
    rcases hmem3 e he with h | h | h
    · exact canonAt_mono PP D part e (hCanon e h)
    · rw [h]
      refine ⟨D ++ [part], hDpMem, D.length + 1, by omega, by rw [hDpLen],
        ?_, ?_, ?_, ?_⟩
      · show joinSegs (D ++ [part]) = joinSegs ((D ++ [part]).take (D.length + 1))
        rw [hDpFull]
      · show nd.depth = D.length + 1 - 1
        rw [hnd4]
        omega
      · intro h1
        exact absurd (List.length_eq_zero.mp (by omega)) hD0
      · intro h2
        show nd.parentId = some (joinSegs ((D ++ [part]).take (D.length + 1 - 1)))
        rw [hnd2]
        have hsub : D.length + 1 - 1 = D.length := rfl
        rw [hsub, hDpD]
    · rw [h]
      obtain ⟨L, hL, i, hi1, hi2, hk, hd, hp1, hp2⟩ :=
        canonAt_mono PP D part (joinSegs D, pn) (hCanon (joinSegs D, pn) hprEntry)
      refine ⟨L, hL, i, hi1, hi2, hk, ?_, ?_, ?_⟩
      · show pn2.depth = i - 1
        rw [hq4]
        exact hd
      · intro h1
        show pn2.parentId = none
        rw [hq2]
        exact hp1 h1
      · intro h2
        show pn2.parentId = some (joinSegs (L.take (i - 1)))
        rw [hq2]
        exact hp2 h2

theorem dirStep_spec (PP : List (List String)) (D : List String) (part : String)
    (m : NodeMap)
    (hJ : JoinOk (PP ++ [D ++ [part]]))
    (hS : SegsOk (PP ++ [D ++ [part]]))
    (hInv : DirInv (PP ++ [D]) m) :
    ∃ m', dirStep (m, joinSegs D, (if D = [] then none else some (joinSegs D)),
        D.length) part
      = (m', joinSegs (D ++ [part]), some (joinSegs (D ++ [part])),
         D.length + 1) ∧
      DirInv (PP ++ [D ++ [part]]) m' := by
  obtain ⟨hU, hK, hN, hC, hP1, hP2, hCanon⟩ := hInv
  have hDpMem : D ++ [part] ∈ PP ++ [D ++ [part]] :=
    List.mem_append.mpr (Or.inr (List.mem_singleton.mpr rfl))
  have hDMem : D ∈ PP ++ [D] :=
    List.mem_append.mpr (Or.inr (List.mem_singleton.mpr rfl))
  have hDpSegs : ∀ s ∈ D ++ [part], s ≠ "" := hS _ hDpMem
  have hDpD : (D ++ [part]).take D.length = D := by
    rw [List.take_append_of_le_length (Nat.le_refl _), List.take_length]
  have hDpLen : (D ++ [part]).length = D.length + 1 := by simp
  have hDpFull : (D ++ [part]).take (D.length + 1) = D ++ [part] := by
    rw [← hDpLen, List.take_length]
  have hJD : JoinOk (PP ++ [D]) := by
    have := joinOk_take PP (D ++ [part]) D.length hJ
    rwa [hDpD] at this
  have hid : (if joinSegs D = "" then part else joinSegs D ++ "/" ++ part)
      = joinSegs (D ++ [part]) := by
    rw [joinSegs_append_singleton]
    by_cases hD0 : D = []
    · subst hD0
      simp [joinSegs]
    · rw [if_neg hD0, if_neg (joinSegs_ne_empty D hD0
        (fun s hs => hDpSegs s (List.mem_append.mpr (Or.inl hs))))]
  have hprneid : joinSegs D ≠ joinSegs (D ++ [part]) := by
    intro he
    by_cases hD0 : D = []
    · subst hD0
      have : part = "" := by simpa [joinSegs] using he.symm
      exact hDpSegs part (by simp) this
    · have h1 : 1 ≤ D.length := by
        cases D with
        | nil => exact absurd rfl hD0
        | cons a t => simp
      have h2 := hJ _ hDpMem _ hDpMem D.length (D.length + 1) h1
        (by omega) (by omega) (by omega)
        (by rw [hDpD, hDpFull]; exact he)
      rw [hDpD, hDpFull] at h2
      have := congrArg List.length h2
      simp at this
  have hSelf : ∀ e ∈ m, e.2.parentId ≠ some e.1 :=
    dirInv_no_self_parent _ m hJD hCanon
  unfold dirStep
  dsimp only
  rw [hid]
  by_cases hHas : hasK m (joinSegs (D ++ [part])) = true
  · rw [if_pos hHas]
    refine ⟨m, rfl, hU, ?_, hN, hC, hP1, hP2,
      fun e he => canonAt_mono PP D part e (hCanon e he)⟩
    intro k
    rw [hK k]
    constructor
    · exact hasRep_mono PP D part k
    · intro hrep
      obtain ⟨L, hL, i, hi1, hi2, hk⟩ := hrep
      rcases List.mem_append.mp hL with hL' | hL'
      · exact ⟨L, List.mem_append.mpr (Or.inl hL'), i, hi1, hi2, hk⟩
      · rw [List.mem_singleton] at hL'
        subst hL'
        by_cases hiD : i ≤ D.length
        · refine ⟨D, hDMem, i, hi1, hiD, ?_⟩
          rw [List.take_append_of_le_length hiD] at hk
          exact hk
        · have hieq : i = D.length + 1 := by
            rw [hDpLen] at hi2
            omega
          subst hieq
          rw [hDpFull] at hk
          subst hk
          exact (hK _).mp hHas
  · rw [if_neg hHas]
    have hFresh : getK m (joinSegs (D ++ [part])) = none := by
      cases hg : getK m (joinSegs (D ++ [part])) with
      | none => rfl
      | some v => rw [hasK, hg] at hHas; simp at hHas
    have hFreshKey : ∀ k v, getK m k = some v → k ≠ joinSegs (D ++ [part]) := by
      intro k v hg hk
      rw [hk, hFresh] at hg
      exact Option.noConfusion hg
    by_cases hD0 : D = []
    · subst hD0
      rw [if_pos rfl]
      dsimp only
      refine ⟨_, rfl, ?_⟩
      refine ⟨nodup_keysOf_setK m _ _ hU, ?_, ?_, ?_, ?_, ?_, ?_⟩
      · intro k
        rw [hasK_setK]
        constructor
        · intro hor
          rcases Bool.or_eq_true_iff.mp hor with h | h
          · exact hasRep_mono PP [] part k ((hK k).mp h)
          · have hkid : k = joinSegs ([] ++ [part]) := of_decide_eq_true h
            rw [hkid]
            exact ⟨[] ++ [part], hDpMem, 1, Nat.le_refl _, by simp, rfl⟩
        · intro hrep
          obtain ⟨L, hL, i, hi1, hi2, hk⟩ := hrep
          rcases List.mem_append.mp hL with hL' | hL'
          · exact Bool.or_eq_true_iff.mpr (Or.inl ((hK k).mpr
              ⟨L, List.mem_append.mpr (Or.inl hL'), i, hi1, hi2, hk⟩))
          · rw [List.mem_singleton] at hL'
            subst hL'
            have hieq : i = 1 := by simp at hi2; omega
            subst hieq
            exact Bool.or_eq_true_iff.mpr (Or.inr (decide_eq_true hk))
      · intro e he
        rcases mem_setK _ _ _ _ he with h | h
        · exact hN e h
        · subst h
          rfl
      · intro e he
        rcases mem_setK _ _ _ _ he with h | h
        · exact hC e h
        · subst h
          exact List.nodup_nil
      · intro e he c hc
        rcases mem_setK _ _ _ _ he with h | h
        · obtain ⟨cn, hcn, hcnp⟩ := hP1 e h c hc
          refine ⟨cn, ?_, hcnp⟩
          rw [getK_setK_ne _ _ _ _ (hFreshKey c cn hcn)]
          exact hcn
        · subst h
          simp at hc
      · intro e he pr hpr
        rcases mem_setK _ _ _ _ he with h | h
        · obtain ⟨pn, hpn, hmem, hdep⟩ := hP2 e h pr hpr
          refine ⟨pn, ?_, hmem, hdep⟩
          rw [getK_setK_ne _ _ _ _ (hFreshKey pr pn hpn)]
          exact hpn
        · subst h
          exact Option.noConfusion hpr
      · intro e he
        rcases mem_setK _ _ _ _ he with h | h
        · exact canonAt_mono PP [] part e (hCanon e h)
        · subst h
          exact ⟨[] ++ [part], hDpMem, 1, Nat.le_refl _, by simp, rfl, rfl,
            fun _ => rfl, fun h2 => by omega⟩
    · rw [if_neg hD0]
      dsimp only
      have hDLen : 1 ≤ D.length := by
        cases D with
        | nil => exact absurd rfl hD0
        | cons a t => simp
      have hRepD : hasRep (PP ++ [D]) (joinSegs D) :=
        ⟨D, hDMem, D.length, hDLen, Nat.le_refl _, by rw [List.take_length]⟩
      obtain ⟨pn, hpn⟩ : ∃ pn, getK m (joinSegs D) = some pn := by
        have := (hK (joinSegs D)).mpr hRepD
        cases hg : getK m (joinSegs D) with
        | none => rw [hasK, hg] at this; simp at this
        | some v => exact ⟨v, rfl⟩
      have hprEntry : (joinSegs D, pn) ∈ m := mem_of_getK_eq_some _ _ _ hpn
      have hgetpr1 : getK (setK m (joinSegs (D ++ [part]))
          (GraphNode.mk (joinSegs (D ++ [part])) part NodeType.DIRECTORY
            (some (joinSegs D)) [] 0 D.length)) (joinSegs D) = some pn := by
        rw [getK_setK_ne _ _ _ _ hprneid]
        exact hpn
      rw [hgetpr1]
      dsimp only
      have hguard : (pn.children.find?
          (fun c => c = joinSegs (D ++ [part]))).isSome = false := by
        cases hf : pn.children.find? (fun c => c = joinSegs (D ++ [part])) with
        | none => rfl
        | some c =>
            exfalso
            have hcmem := List.mem_of_find?_eq_some hf
            have h1 := List.find?_some hf
            have hceq : c = joinSegs (D ++ [part]) := by simpa using h1
            obtain ⟨cn, hcn, _⟩ := hP1 (joinSegs D, pn) hprEntry c hcmem
            exact hFreshKey c cn hcn hceq
      rw [if_neg (by rw [hguard]; exact Bool.false_ne_true)]
      refine ⟨_, rfl, ?_⟩
      have hpdepth : pn.depth = D.length - 1 := by
        obtain ⟨L, hL, i, hi1, hi2, hkL, hdL, _, _⟩ := hCanon (joinSegs D, pn) hprEntry
        have hmemJ : ∀ M, M ∈ PP ++ [D] → ∀ k : Nat, 1 ≤ k → k ≤ M.length →
            ∃ M', M' ∈ PP ++ [D ++ [part]] ∧ M'.take k = M.take k ∧
              k ≤ M'.length := by
          intro M hM k hk hkM
          rcases List.mem_append.mp hM with hM | hM
          · exact ⟨M, List.mem_append.mpr (Or.inl hM), rfl, hkM⟩
          · rw [List.mem_singleton] at hM
            refine ⟨D ++ [part], hDpMem, ?_, ?_⟩
            · rw [hM]
              exact List.take_append_of_le_length (hM ▸ hkM)
            · have hkD : k ≤ D.length := hM ▸ hkM
              rw [List.length_append]
              simp
              omega
        obtain ⟨L', hL', hLeq, hkL'⟩ := hmemJ L hL i hi1 hi2
        have hjoin : joinSegs (L'.take i) = joinSegs ((D ++ [part]).take D.length) := by
          rw [hLeq, hDpD, ← hkL]
        have := hJ L' hL' _ hDpMem i D.length hi1 hkL' hDLen (by simp) hjoin
        rw [hLeq, hDpD] at this
        have hlen := congrArg List.length this
        rw [List.length_take, Nat.min_eq_left hi2] at hlen
        have hdL2 : pn.depth = i - 1 := hdL
        omega
      exact setK_child_dirInv PP D part m pn _ _ _ rfl hJ
        ⟨hU, hK, hN, hC, hP1, hP2, hCanon⟩ hD0 hpn hFresh hprneid hpdepth
        rfl rfl rfl rfl rfl rfl rfl rfl

/-- setK_root_dirInv: inserting a fresh root node (no parent, depth zero)
for a single-segment path preserves the registry invariant. -/
theorem setK_root_dirInv (PP : List (List String)) (s : String) (m : NodeMap)
    (nd : GraphNode)
    (hInv : DirInv PP m)
    (hfreshRep : ¬ hasRep PP s)
    (hnd1 : nd.id = s)
    (hnd2 : nd.parentId = none)
    (hnd3 : nd.children = ([] : List String))
    (hnd4 : nd.depth = 0) :
    DirInv (PP ++ [[s]]) (setK m s nd) := by
  obtain ⟨hU, hK, hN, hC, hP1, hP2, hCanon⟩ := hInv
  have hFresh : getK m s = none := by
    cases hg : getK m s with
    | none => rfl
    | some v =>
        exfalso
        refine hfreshRep ((hK s).mp ?_)
        rw [hasK, hg]
        rfl
  have hFreshKey : ∀ k v, getK m k = some v → k ≠ s := by
    intro k v hg hk
    rw [hk, hFresh] at hg
    exact Option.noConfusion hg
  refine ⟨nodup_keysOf_setK _ _ _ hU, ?_, ?_, ?_, ?_, ?_, ?_⟩
  · intro k
    rw [hasK_setK]
    constructor
    · intro h
      rcases Bool.or_eq_true_iff.mp h with h | h
      · exact hasRep_append PP [s] k ((hK k).mp h)
      · have hk : k = s := of_decide_eq_true h
        rw [hk]
        exact ⟨[s], List.mem_append.mpr (Or.inr (List.mem_singleton.mpr rfl)),
          1, Nat.le_refl _, by simp, rfl⟩
    · intro hrep
      obtain ⟨L, hL, i, hi1, hi2, hk⟩ := hrep
      rcases List.mem_append.mp hL with hL2 | hL2
      · exact Bool.or_eq_true_iff.mpr (Or.inl ((hK k).mpr
          ⟨L, hL2, i, hi1, hi2, hk⟩))
      · rw [List.mem_singleton] at hL2
        have hieq : i = 1 := by
          rw [hL2] at hi2
          simp at hi2
          omega
        refine Bool.or_eq_true_iff.mpr (Or.inr (decide_eq_true ?_))
        rw [hk, hL2, hieq]
        rfl
  · intro e he
    rcases mem_setK _ _ _ _ he with h | h
    · exact hN e h
    · rw [h]
      exact hnd1
  · intro e he
    rcases mem_setK _ _ _ _ he with h | h
    · exact hC e h
    · rw [h]
      show nd.children.Nodup
      rw [hnd3]
      exact List.nodup_nil
  · intro e he c hc
    rcases mem_setK _ _ _ _ he with h | h
    · obtain ⟨cn, hcn, hcp⟩ := hP1 e h c hc
      refine ⟨cn, ?_, hcp⟩
      rw [getK_setK_ne _ _ _ _ (hFreshKey c cn hcn)]
      exact hcn
    · rw [h] at hc
      have hc2 : c ∈ nd.children := hc
      rw [hnd3] at hc2
      simp at hc2
  · intro e he pr hpr
    rcases mem_setK _ _ _ _ he with h | h
    · obtain ⟨q, hq, hqmem, hqdep⟩ := hP2 e h pr hpr
      refine ⟨q, ?_, hqmem, hqdep⟩
      rw [getK_setK_ne _ _ _ _ (hFreshKey pr q hq)]
      exact hq
    · rw [h] at hpr
      have hpr2 : nd.parentId = some pr := hpr
      rw [hnd2] at hpr2
      exact Option.noConfusion hpr2
  · intro e he
    rcases mem_setK _ _ _ _ he with h | h
    · exact canonAt_append PP [s] e (hCanon e h)
    · rw [h]
      refine ⟨[s], List.mem_append.mpr (Or.inr (List.mem_singleton.mpr rfl)),
        1, Nat.le_refl _, by simp, ?_, ?_, ?_, ?_⟩
      · show s = joinSegs ([s].take 1)
        rfl
      · show nd.depth = 1 - 1
        rw [hnd4]
      · intro h1
        exact hnd2
      · intro h2
        exact absurd h2 (by omega)

/-- dirWalk_spec: folding dirStep over the remaining segments carries the
state to the full joined prefix and preserves the registry invariant. -/
theorem dirWalk_spec (PP : List (List String)) (T : List String)
    (hJ : JoinOk (PP ++ [T])) (hS : SegsOk (PP ++ [T])) :
    ∀ (todo D : List String) (m : NodeMap), D ++ todo = T →
      DirInv (PP ++ [D]) m →
      ∃ m2, todo.foldl dirStep
          (m, joinSegs D, (if D = [] then none else some (joinSegs D)), D.length)
        = (m2, joinSegs T, (if T = [] then none else some (joinSegs T)),
           T.length) ∧
        DirInv (PP ++ [T]) m2 := by
  intro todo
  induction todo with
  | nil =>
      intro D m hDT hInv
      have hDeq : D = T := by
        rw [← hDT, List.append_nil]
      refine ⟨m, ?_, ?_⟩
      · rw [List.foldl_nil, hDeq]
      · rw [← hDeq]
        exact hInv
  | cons t ts ih =>
      intro D m hDT hInv
      have htake : T.take (D.length + 1) = D ++ [t] := by
        rw [← hDT, List.take_append_eq_append_take]
        congr 1
        · exact List.take_of_length_le (by omega)
        · have hsub : D.length + 1 - D.length = 1 := by omega
          rw [hsub]
          rfl
      have hJstep : JoinOk (PP ++ [D ++ [t]]) := by
        have h1 := joinOk_take PP T (D.length + 1) hJ
        rwa [htake] at h1
      have hSstep : SegsOk (PP ++ [D ++ [t]]) := by
        have h1 := segsOk_take PP T (D.length + 1) hS
        rwa [htake] at h1
      obtain ⟨m1, hstep, hInv1⟩ := dirStep_spec PP D t m hJstep hSstep hInv
      rw [List.foldl_cons, hstep]
      have hconv : ((m1, joinSegs (D ++ [t]), some (joinSegs (D ++ [t])),
          D.length + 1) : NodeMap × String × Option String × Nat)
          = (m1, joinSegs (D ++ [t]),
             (if D ++ [t] = [] then none else some (joinSegs (D ++ [t]))),
             (D ++ [t]).length) := by
        rw [if_neg (by simp), List.length_append]
        rfl
      obtain ⟨m2, hfold, hInvT⟩ := ih (D ++ [t]) m1
        (by rw [List.append_assoc]; exact hDT) hInv1
      refine ⟨m2, ?_, hInvT⟩
      rw [hconv]
      exact hfold

/-- filePathStep_spec: processing one file path extends the registry
invariant by the full segment list of the path, provided the path id is
fresh among the already registered prefix ids. -/
theorem filePathStep_spec (PP : List (List String))
    (locByFile : List (String × Nat)) (m : NodeMap) (p : String)
    (hJ : JoinOk (PP ++ [pathSegs p]))
    (hS : SegsOk (PP ++ [pathSegs p]))
    (hround : joinSegs (pathSegs p) = p)
    (hfresh : ¬ hasRep PP p)
    (hInv : DirInv PP m) :
    DirInv (PP ++ [pathSegs p]) (filePathStep locByFile m p) := by
  have hne : pathSegs p ≠ [] := pathSegs_ne_nil p
  obtain ⟨x, hx⟩ : ∃ x, pathSegs p = (pathSegs p).dropLast ++ [x] :=
    ⟨(pathSegs p).getLast hne, (List.dropLast_append_getLast hne).symm⟩
  have hjp : joinSegs ((pathSegs p).dropLast ++ [x]) = p := by
    rw [← hx]
    exact hround
  have hJx : JoinOk (PP ++ [(pathSegs p).dropLast ++ [x]]) := by
    rw [← hx]
    exact hJ
  have hSx : SegsOk (PP ++ [(pathSegs p).dropLast ++ [x]]) := by
    rw [← hx]
    exact hS
  have hsubJ : JoinOk (PP ++ [(pathSegs p).dropLast]) := by
    have h1 := joinOk_take PP (pathSegs p) ((pathSegs p).length - 1) hJ
    rwa [← List.dropLast_eq_take] at h1
  have hsubS : SegsOk (PP ++ [(pathSegs p).dropLast]) := by
    have h1 := segsOk_take PP (pathSegs p) ((pathSegs p).length - 1) hS
    rwa [← List.dropLast_eq_take] at h1
  obtain ⟨m1, hwalk, hInv1⟩ := dirWalk_spec PP ((pathSegs p).dropLast) hsubJ
    hsubS ((pathSegs p).dropLast) [] m rfl (dirInv_push_nil PP m hInv)
  have hwalk2 : ((pathSegs p).dropLast).foldl dirStep (m, "", none, 0)
      = (m1, joinSegs ((pathSegs p).dropLast),
         (if (pathSegs p).dropLast = [] then none
          else some (joinSegs ((pathSegs p).dropLast))),
         ((pathSegs p).dropLast).length) := hwalk
  have hK1 : ∀ k, hasK m1 k = true ↔ hasRep (PP ++ [(pathSegs p).dropLast]) k :=
    hInv1.2.1
  have hCanon1 : ∀ e ∈ m1, canonAt (PP ++ [(pathSegs p).dropLast]) e :=
    hInv1.2.2.2.2.2.2
  have hL1 : 1 ≤ (pathSegs p).length := by
    cases hq : pathSegs p with
    | nil => exact absurd hq hne
    | cons a t => simp
  have hfresh2 : ¬ hasRep (PP ++ [(pathSegs p).dropLast]) p := by
    intro hrep
    obtain ⟨L, hL, i, hi1, hi2, hk⟩ := hrep
    rcases List.mem_append.mp hL with hL2 | hL2
    · exact hfresh ⟨L, hL2, i, hi1, hi2, hk⟩
    · rw [List.mem_singleton] at hL2
      have hlen2 : i ≤ (pathSegs p).length - 1 := by
        rw [hL2, List.length_dropLast] at hi2
        exact hi2
      have htk : L.take i = (pathSegs p).take i := by
        rw [hL2, List.dropLast_eq_take, List.take_take]
        congr 1
        omega
      have hjoin : joinSegs ((pathSegs p).take (pathSegs p).length)
          = joinSegs ((pathSegs p).take i) := by
        rw [List.take_length, ← htk, ← hk]
        exact hround
      have hmemT : pathSegs p ∈ PP ++ [pathSegs p] :=
        List.mem_append.mpr (Or.inr (List.mem_singleton.mpr rfl))
      have heq2 := hJ _ hmemT _ hmemT (pathSegs p).length i hL1 (Nat.le_refl _)
        hi1 (by omega) hjoin
      have hlen3 := congrArg List.length heq2
      rw [List.take_length, List.length_take] at hlen3
      omega
  have hFresh1 : getK m1 p = none := by
    cases hg : getK m1 p with
    | none => rfl
    | some v =>
        exfalso
        refine hfresh2 ((hK1 p).mp ?_)
        rw [hasK, hg]
        rfl
  show DirInv (PP ++ [pathSegs p]) (filePathStep locByFile m p)
  simp only [filePathStep]
  rw [show splitOnChar '/' p = pathSegs p from rfl]
  rw [hwalk2]
  dsimp only
  by_cases hd0 : (pathSegs p).dropLast = []
  · rw [if_pos hd0]
    dsimp only
    rw [hd0] at hInv1
    have hInv1b := dirInv_pop_nil PP m1 hInv1
    have hx0 : pathSegs p = [x] := by
      rw [hx, hd0]
      rfl
    have hpx : p = x := by
      conv_lhs => rw [← hround]
      rw [hx0]
      rfl
    have hlistrw : pathSegs p = [p] := by
      rw [hx0, hpx]
    rw [hlistrw]
    exact setK_root_dirInv PP p m1 _ hInv1b hfresh rfl rfl rfl rfl
  · rw [if_neg hd0]
    dsimp only
    have hd2 : 1 ≤ ((pathSegs p).dropLast).length := by
      cases hq : (pathSegs p).dropLast with
      | nil => exact absurd hq hd0
      | cons a t => simp
    have hRepD : hasRep (PP ++ [(pathSegs p).dropLast])
        (joinSegs ((pathSegs p).dropLast)) :=
      ⟨(pathSegs p).dropLast,
       List.mem_append.mpr (Or.inr (List.mem_singleton.mpr rfl)),
       ((pathSegs p).dropLast).length, hd2, Nat.le_refl _,
       by rw [List.take_length]⟩
    obtain ⟨pn, hpn⟩ : ∃ pn,
        getK m1 (joinSegs ((pathSegs p).dropLast)) = some pn := by
      have hhk := (hK1 _).mpr hRepD
      cases hg : getK m1 (joinSegs ((pathSegs p).dropLast)) with
      | none => rw [hasK, hg] at hhk; simp at hhk
      | some v => exact ⟨v, rfl⟩
    have hprne : joinSegs ((pathSegs p).dropLast) ≠ p := by
      intro hc
      refine joinSegs_ne_extend PP ((pathSegs p).dropLast) x hJx hSx ?_
      rw [hjp]
      exact hc
    rw [getK_setK_ne _ _ _ _ hprne, hpn]
    dsimp only
    have hpdepth : pn.depth = ((pathSegs p).dropLast).length - 1 :=
      parent_depth_eq PP ((pathSegs p).dropLast) x m1 pn hJx
        hCanon1 hd0 (mem_of_getK_eq_some _ _ _ hpn)
    have hlist : (PP ++ [pathSegs p])
        = (PP ++ [(pathSegs p).dropLast ++ [x]]) := by
      rw [← hx]
    rw [hlist]
    refine setK_child_dirInv PP ((pathSegs p).dropLast) x m1 pn _ _ p hjp.symm
      hJx hInv1 hd0 hpn hFresh1
      (joinSegs_ne_extend PP ((pathSegs p).dropLast) x hJx hSx)
      hpdepth rfl rfl rfl rfl rfl rfl ?_ rfl
    show pn.children ++ [p]
        = pn.children ++ [joinSegs ((pathSegs p).dropLast ++ [x])]
    rw [hjp]

/-- filesFold_inv: folding filePathStep over the file paths preserves and
extends the registry invariant along the processed segment lists. -/
theorem filesFold_inv (locByFile : List (String × Nat)) :
    ∀ (todo : List String) (PP : List (List String)) (m : NodeMap),
      JoinOk (PP ++ todo.map pathSegs) →
      SegsOk (PP ++ todo.map pathSegs) →
      (∀ p ∈ todo, joinSegs (pathSegs p) = p) →
      freshOk PP todo = true →
      DirInv PP m →
      DirInv (PP ++ todo.map pathSegs)
        (todo.foldl (filePathStep locByFile) m) := by
  intro todo
  induction todo with
  | nil =>
      intro PP m hJ hS hround hfr hInv
      rw [List.map_nil, List.append_nil, List.foldl_nil]
      exact hInv
  | cons p rest ih =>
      intro PP m hJ hS hround hfr hInv
      rw [List.map_cons] at hJ hS
      have hsub1 : ∀ L ∈ PP ++ [pathSegs p],
          L ∈ PP ++ pathSegs p :: rest.map pathSegs := by
        intro L hL
        rcases List.mem_append.mp hL with h | h
        · exact List.mem_append.mpr (Or.inl h)
        · rw [List.mem_singleton] at h
          refine List.mem_append.mpr (Or.inr ?_)
          rw [h]
          exact List.mem_cons_self _ _
      have hJ1 : JoinOk (PP ++ [pathSegs p]) := joinOk_subset _ _ hsub1 hJ
      have hS1 : SegsOk (PP ++ [pathSegs p]) := segsOk_subset _ _ hsub1 hS
      unfold freshOk at hfr
      rw [Bool.and_eq_true] at hfr
      obtain ⟨hfr1, hfr2⟩ := hfr
      have hfreshp : ¬ hasRep PP p := by
        intro hr
        rw [Bool.not_eq_true'] at hfr1
        rw [← hasRepB_iff] at hr
        rw [hfr1] at hr
        exact Bool.false_ne_true hr
      have hInv1 := filePathStep_spec PP locByFile m p hJ1 hS1
        (hround p (List.mem_cons_self _ _)) hfreshp hInv
      rw [List.foldl_cons]
      have hassoc : (PP ++ [pathSegs p]) ++ rest.map pathSegs
          = PP ++ pathSegs p :: rest.map pathSegs := by
        rw [List.append_assoc]
        rfl
      have hres := ih (PP ++ [pathSegs p]) (filePathStep locByFile m p)
        (by rw [hassoc]; exact hJ) (by rw [hassoc]; exact hS)
        (fun q hq => hround q (List.mem_cons_of_mem _ hq)) hfr2 hInv1
      rw [hassoc] at hres
      rw [List.map_cons]
      exact hres

/-- C8 (corrected): for a file path list whose segment lists have
nonempty segments, whose joined prefix ids are unambiguous, whose paths
round-trip through their segments, and in which no path equals an
already created node id of an earlier path, the registry built by
buildDirectories has duplicate-free keys, id-keyed nodes, duplicate-free
children arrays, and children arrays consistent with parentId
back-references with depth increasing by one along containment. The
original unconditional claim is refuted by c8_cex: the file node is
written unconditionally and overwrites the directory node created for an
earlier path with the same id. -/
theorem c8_theorem (d : MetricData)
    (hJ : joinOkB ((filePathsOf d).map pathSegs) = true)
    (hS : SegsOk ((filePathsOf d).map pathSegs))
    (hround : ∀ p ∈ filePathsOf d, joinSegs (pathSegs p) = p)
    (hfresh : freshOk [] (filePathsOf d) = true) :
    consistentMap (buildDirectories d) := by
  have hJ2 : JoinOk (([] : List (List String)) ++ (filePathsOf d).map pathSegs) :=
    joinOkB_sound _ hJ
  have hS2 : SegsOk (([] : List (List String)) ++ (filePathsOf d).map pathSegs) :=
    hS
  have h := filesFold_inv d.locByFile (filePathsOf d) [] [] hJ2 hS2 hround
    hfresh dirInv_nil
  rw [List.nil_append] at h
  exact dirInv_consistent _ _ h

/-- c8_witness: the corrected claim evaluated on the concrete path list
with a shared directory. -/
theorem c8_witness : consistentMap (buildDirectories c8WitnessInput) :=
  c8_theorem c8WitnessInput (by decide)
    (by simp only [SegsOk]; decide) (by decide) (by decide)

/-- c8_cex: on the path list where one file path equals the directory id
created for an earlier path, the resulting registry violates the
containment consistency: the file node written second overwrites the
directory node, so the child that pointed at it via parentId is no
longer listed in any children array. -/
theorem c8_cex : ¬ consistentMap (buildDirectories c8Input) := by
  intro h
  obtain ⟨h1, h2, h3, h4, h5⟩ := h
  obtain ⟨pn, hpn, hmem, hdep⟩ := h5 (("a/x" : String),
      GraphNode.mk "a/x" "x" NodeType.FILE (some "a") [] 10 1) (by decide)
    "a" rfl
  have hA : getK (buildDirectories c8Input) "a"
      = some (GraphNode.mk "a" "a" NodeType.FILE none [] 10 0) := by decide
  rw [hA] at hpn
  have hpneq := Option.some.inj hpn
  rw [← hpneq] at hmem
  simp at hmem

end Mm
